import Mathlib

/-! Verification development for the fixed-size worker thread pool implemented in
src/thread_pool.h (class thread_pool) and driven by src/Lab2.cpp.  The pool is
embedded shallowly: pure member functions become Lean functions, the concurrent
behaviour of the worker threads and the single submitting caller becomes a labelled
small-step transition system whose atomic steps correspond to the atomic regions of
the C++ code (a region protected by the write lock is one step; unprotected
statements are individual steps).  Machine integers (size_t) are modelled by Nat;
the rejection sentinel (size_t)(-1) is the explicit constant 2^64 - 1 assuming the
usual 64-bit size_t.  A task (std::function returning size_t) is modelled by the
value it returns. -/

set_option maxHeartbeats 1000000

namespace ThreadPool

/-- Task lifecycle states: the nested enum `thread_pool::TaskStatus::Status`
(Waiting, Working, Finished) of thread_pool.h. -/
inductive Status
  | Waiting
  | Working
  | Finished
deriving DecidableEq

/-- One entry of `m_task_status`: the struct `thread_pool::TaskStatus` holding a
status and a result (`size_t result = NULL`). -/
structure TaskStatus where
  status : Status
  result : Nat
deriving DecidableEq

/-- The value-initialized entry that `m_task_status[id]` (std::unordered_map
operator[]) creates for an absent id: status is the zero enumerator Waiting and
result is 0. -/
def defaultTaskStatus : TaskStatus := ⟨Status.Waiting, 0⟩

/-- Modelled from the spec: the class `task_queue<T>` of task_queue.h, which is not
under src/ (only its uses in thread_pool.h are).  Per spec section 4.1 it is a FIFO
buffer whose `emplace` appends at the back and returns a freshly assigned,
monotonically increasing id unique for the pool's lifetime; `pop` removes and
returns the front item if any; `size` counts pending items; `clear` discards all
pending items without affecting ids already assigned; `task_count` reports how many
tasks were ever added. -/
structure task_queue where
  items : List (Nat × Nat)
  next_id : Nat
  tasks_added : Nat
deriving DecidableEq

/-- Modelled from the spec: `task_queue::emplace` appends the task at the back with
a fresh id and returns that id. -/
def task_queue.emplace (q : task_queue) (v : Nat) : task_queue × Nat :=
  (⟨q.items ++ [(q.next_id, v)], q.next_id + 1, q.tasks_added + 1⟩, q.next_id)

/-- Modelled from the spec: `task_queue::pop` removes and returns the front item,
signalling emptiness by `none`. -/
def task_queue.pop (q : task_queue) : Option ((Nat × Nat) × task_queue) :=
  match q.items with
  | [] => none
  | x :: rest => some (x, ⟨rest, q.next_id, q.tasks_added⟩)

/-- Modelled from the spec: `task_queue::size`, the number of pending items. -/
def task_queue.size (q : task_queue) : Nat := q.items.length

/-- Modelled from the spec: `task_queue::clear` discards all pending items and
leaves assigned ids untouched. -/
def task_queue.clear (q : task_queue) : task_queue := ⟨[], q.next_id, q.tasks_added⟩

/-- Modelled from the spec: `task_queue::task_count`, how many tasks were ever
added. -/
def task_queue.task_count (q : task_queue) : Nat := q.tasks_added

/-- Control state of one worker thread executing `thread_pool::routine`:
idle (at the top of the loop, inside the condition-variable wait), gotTask (the
wait predicate popped a task, line 101, the Working mark not yet written),
working (wrote `status = Working`, line 111), wroteResult (wrote
`result = task()`, line 122, the Finished mark not yet written), exited
(returned at line 109). -/
inductive WorkerState
  | idle
  | gotTask (id v : Nat)
  | working (id v : Nat)
  | wroteResult (id v : Nat)
  | exited
deriving DecidableEq

/-- The shared state of the pool object: the task queue `m_tasks`, the status table
`m_task_status`, the worker vector `m_workers` (each thread abstracted to its
control state), and the two flags `m_initialized` and `m_terminated`.  Debug-only
members (timing statistics, print lock) affect console output only and are not
modelled. -/
structure PoolState where
  m_tasks : task_queue
  m_task_status : Nat → Option TaskStatus
  m_workers : List WorkerState
  m_initialized : Bool
  m_terminated : Bool

/-- `thread_pool::working_unsafe`: the pool is usable iff initialized and not
terminated. -/
def working_unsafe (s : PoolState) : Bool := s.m_initialized && !s.m_terminated

/-- The rejection sentinel `(size_t)(-1)` returned by `add_task` on a pool that is
not working, for the usual 64-bit size_t. -/
def USIZE_MAX : Nat := 2 ^ 64 - 1

/-- The semantics of `m_task_status[id]` followed by a field mutation: the entry is
value-initialized if absent, then the field update is applied. -/
def status_upd (m : Nat → Option TaskStatus) (id : Nat) (f : TaskStatus → TaskStatus) :
    Nat → Option TaskStatus :=
  fun j => if j = id then some (f ((m id).getD defaultTaskStatus)) else m j

/-- The successful path of `thread_pool::add_task`: emplace the task into
`m_tasks` and set the status of the returned id to Waiting
(`m_task_status[id].status = Waiting`). -/
def submit_update (s : PoolState) (v : Nat) : PoolState :=
  { s with
    m_tasks := (s.m_tasks.emplace v).1,
    m_task_status :=
      status_upd s.m_task_status s.m_tasks.next_id
        (fun e => { e with status := Status.Waiting }) }

/-- `thread_pool::add_task`: returns the sentinel when the pool is not working,
otherwise emplaces the task, records Waiting for the fresh id and returns it. -/
def add_task (s : PoolState) (v : Nat) : PoolState × Nat :=
  if working_unsafe s then (submit_update s v, s.m_tasks.next_id)
  else (s, USIZE_MAX)

/-- The console messages `thread_pool::get_status` can print. -/
inductive ConsoleMsg
  | noSuchTask
  | inQueue (id : Nat)
  | processing (id : Nat)
deriving DecidableEq

/-- `thread_pool::get_status`: for an unknown id prints "No such task exists." and
returns 0; for a Waiting task prints "Task id is in the task queue." and falls
through to return the entry's result (still the value-initialized 0); for a Working
task prints "Task id is being processed." and returns 0; for a Finished task prints
nothing and returns the stored result. -/
def get_status (s : PoolState) (id : Nat) : Option ConsoleMsg × Nat :=
  match s.m_task_status id with
  | none => (some ConsoleMsg.noSuchTask, 0)
  | some ts =>
    match ts.status with
    | Status.Waiting => (some (ConsoleMsg.inQueue id), ts.result)
    | Status.Working => (some (ConsoleMsg.processing id), 0)
    | Status.Finished => (none, ts.result)

/-- `thread_pool::initialize`: a silent no-op when `m_initialized || m_terminated`;
otherwise spawns `worker_count` workers (each starting the routine in its idle
state) and sets `m_initialized = !m_workers.empty()`.  The debug flag only controls
console output and is ignored by the model. -/
def initializePool (s : PoolState) (worker_count : Nat) (debug_mode : Bool) : PoolState :=
  if s.m_initialized || s.m_terminated then s
  else
    { s with
      m_workers := s.m_workers ++ List.replicate worker_count WorkerState.idle,
      m_initialized := !(s.m_workers ++ List.replicate worker_count WorkerState.idle).isEmpty }

/-- Which mode of the pool's read-write lock `m_rw_lock` a statement holds while it
executes. -/
inductive LockMode
  | nolock
  | shared
  | exclusive
deriving DecidableEq

/-- The operations on shared pool state performed by the member functions of
thread_pool, named after the statements in thread_pool.h. -/
inductive Action
  | checkWorking
  | emplaceTask
  | insertStatusWaiting
  | popTask
  | statusWriteWorking
  | runTask
  | writeResultField
  | statusWriteFinished
  | clearQueue
  | setTerminated
  | clearWorkers
  | resetFlags
  | spawnWorkers
  | setInitializedFlag
  | notifyOne
  | notifyAll
  | joinAll
  | readStatusTable
deriving DecidableEq

/-- An executed statement together with the lock mode it holds. -/
structure Event where
  action : Action
  lock : LockMode
deriving DecidableEq

/-- The shared-state events executed by one call of `thread_pool::add_task`, in
program order, for each outcome of the working check.  The check runs under the
read (shared) lock whose scope closes at line 140; the emplace (line 143), the
status insertion (line 144) and the notify (line 147) run after that scope, with no
lock held. -/
def add_task_events (runningPool : Bool) : List Event :=
  if runningPool then
    [⟨Action.checkWorking, LockMode.shared⟩,
     ⟨Action.emplaceTask, LockMode.nolock⟩,
     ⟨Action.insertStatusWaiting, LockMode.nolock⟩,
     ⟨Action.notifyOne, LockMode.nolock⟩]
  else
    [⟨Action.checkWorking, LockMode.shared⟩]

/-- The shared-state events of one iteration of `thread_pool::routine`: the wait
predicate pops inside the write lock (lines 98-106); the status writes, the task
execution and the result write (lines 111-123) run after the lock scope closed. -/
def routine_iteration_events (acquired : Bool) : List Event :=
  if acquired then
    [⟨Action.popTask, LockMode.exclusive⟩,
     ⟨Action.statusWriteWorking, LockMode.nolock⟩,
     ⟨Action.runTask, LockMode.nolock⟩,
     ⟨Action.writeResultField, LockMode.nolock⟩,
     ⟨Action.statusWriteFinished, LockMode.nolock⟩]
  else
    [⟨Action.popTask, LockMode.exclusive⟩]

/-- The shared-state events of one call of `thread_pool::terminate`: when the pool
is working, the flag is set under the write lock (lines 183-204), then the notify,
the joins and the final bookkeeping (lines 205-215) run outside it; when it is not
working, the bookkeeping happens inside the locked scope (lines 199-202). -/
def terminate_events (wasWorking : Bool) : List Event :=
  if wasWorking then
    [⟨Action.setTerminated, LockMode.exclusive⟩,
     ⟨Action.notifyAll, LockMode.nolock⟩,
     ⟨Action.joinAll, LockMode.nolock⟩,
     ⟨Action.clearWorkers, LockMode.nolock⟩,
     ⟨Action.resetFlags, LockMode.nolock⟩]
  else
    [⟨Action.clearWorkers, LockMode.exclusive⟩,
     ⟨Action.resetFlags, LockMode.exclusive⟩]

/-- The shared-state events of one call of `thread_pool::terminate_now`: the queue
is cleared under the write lock first (line 228) in both branches; the rest matches
`terminate` (lines 229-253). -/
def terminate_now_events (wasWorking : Bool) : List Event :=
  if wasWorking then
    [⟨Action.clearQueue, LockMode.exclusive⟩,
     ⟨Action.setTerminated, LockMode.exclusive⟩,
     ⟨Action.notifyAll, LockMode.nolock⟩,
     ⟨Action.joinAll, LockMode.nolock⟩,
     ⟨Action.clearWorkers, LockMode.nolock⟩,
     ⟨Action.resetFlags, LockMode.nolock⟩]
  else
    [⟨Action.clearQueue, LockMode.exclusive⟩,
     ⟨Action.clearWorkers, LockMode.exclusive⟩,
     ⟨Action.resetFlags, LockMode.exclusive⟩]

/-- The shared-state events of one call of `thread_pool::initialize` that actually
initializes (the whole body runs under the write lock, lines 71-88). -/
def initialize_events : List Event :=
  [⟨Action.checkWorking, LockMode.exclusive⟩,
   ⟨Action.spawnWorkers, LockMode.exclusive⟩,
   ⟨Action.setInitializedFlag, LockMode.exclusive⟩]

/-- The shared-state events of one call of `thread_pool::get_status` (lines
158-174): the status table is read with no lock held. -/
def get_status_events : List Event :=
  [⟨Action.readStatusTable, LockMode.nolock⟩]

/-- The structural mutations of shared pool state named by the spec: enqueue,
dequeue, clear, and the initialize/terminate bookkeeping. -/
def structuralMutation (a : Action) : Bool :=
  match a with
  | Action.emplaceTask => true
  | Action.insertStatusWaiting => true
  | Action.popTask => true
  | Action.clearQueue => true
  | Action.setTerminated => true
  | Action.clearWorkers => true
  | Action.resetFlags => true
  | Action.spawnWorkers => true
  | Action.setInitializedFlag => true
  | _ => false

/-- The control state of the single submitting caller thread (main in Lab2.cpp):
running ordinary code; inside `add_task` after the read-locked working check passed
(line 137) but before the unlocked emplace at line 143 (`submitPassed v`, holding
the task value); inside `add_task` after the emplace assigned id `id` but before
the unlocked status insertion at line 144 has executed (`submitInserting id v`); or
blocked inside a terminate call between setting the terminated flag and the
completion of the joins (`joining`). -/
inductive CallerPhase
  | running
  | submitPassed (v : Nat)
  | submitInserting (id v : Nat)
  | joining
deriving DecidableEq

/-- A configuration of the whole system: the shared pool object plus the caller's
phase. -/
structure Config where
  pool : PoolState
  caller : CallerPhase

/-- The ids currently pending in the task queue. -/
def queueIds (s : PoolState) : List Nat := s.m_tasks.items.map Prod.fst

/-- Worker index `w` of the worker list `l` currently owns task `id`: it popped the
task and has not yet marked it Finished. -/
def holdsIn (l : List WorkerState) (w id : Nat) : Prop :=
  ∃ v, l.get? w = some (WorkerState.gotTask id v) ∨
       l.get? w = some (WorkerState.working id v) ∨
       l.get? w = some (WorkerState.wroteResult id v)

/-- Worker `w` currently owns task `id` in configuration `c`. -/
def holdsAt (c : Config) (w id : Nat) : Prop :=
  holdsIn c.pool.m_workers w id

/-- Labels naming the atomic steps of the system.  `submitOk v id` labels the
emplace statement (line 143), the point at which the returned id is fixed; the
preceding locked check is `submitBegin v` and the trailing unlocked status
insertion is `submitInsert id`. -/
inductive Label
  | submitBegin (v : Nat)
  | submitOk (v id : Nat)
  | submitInsert (id : Nat)
  | submitRejected (v ret : Nat)
  | dequeue (w id : Nat)
  | workerExit (w : Nat)
  | markWorking (w id : Nat)
  | writeResult (w id v : Nat)
  | markFinished (w id : Nat)
  | graceBegin
  | graceNoop
  | nowBegin
  | nowNoop
  | terminateEnd
  | initStep (n : Nat) (d : Bool)
deriving DecidableEq

/-- The small-step semantics of the pool.  Each constructor is one atomic region of
thread_pool.h: a block protected by the write lock is one step, and each
unprotected statement is its own step.  Worker threads are identified by their
index in `m_workers`.  A successful `add_task` is three separate steps, matching
the code's lock scopes: `submitBegin` is the working check under the read lock
(lines 135-140), `submitOk` is the unlocked `m_tasks.emplace` (line 143, where the
returned id is fixed; the queue itself is internally thread-safe per the spec), and
`submitInsert` is the unlocked `m_task_status[id].status = Waiting` (line 144) —
so worker steps can interleave between them, in particular a worker can pop and
even finish the freshly emplaced task before the Waiting insertion lands.  The
notify at line 147 has no modelled state effect (the condition variable is
abstracted: any enabled worker step may fire).  `submitRejected` is the failing
check.  `dequeue`/`workerExit` are the locked wait block of `routine` (lines
98-110): the wait predicate pops a task if one is pending, and otherwise the
worker proceeds past the wait only when terminated; `markWorking`, `writeResult`,
`markFinished` are the unlocked lines 111, 122, 123; `graceBegin`/`graceNoop` are
the locked block of `terminate`, `nowBegin`/`nowNoop` the locked block of
`terminate_now` (which clears the queue first in either case), `terminateEnd` the
completion of the joins followed by the final bookkeeping, and `initStep` the
locked body of `initialize`. -/
inductive Step : Config → Label → Config → Prop
  | submitBegin (c : Config) (v : Nat)
      (hc : c.caller = CallerPhase.running)
      (hw : working_unsafe c.pool = true) :
      Step c (Label.submitBegin v) ⟨c.pool, CallerPhase.submitPassed v⟩
  | submitOk (c : Config) (v : Nat)
      (hc : c.caller = CallerPhase.submitPassed v) :
      Step c (Label.submitOk v c.pool.m_tasks.next_id)
        ⟨{ c.pool with m_tasks := (c.pool.m_tasks.emplace v).1 },
         CallerPhase.submitInserting c.pool.m_tasks.next_id v⟩
  | submitInsert (c : Config) (id v : Nat)
      (hc : c.caller = CallerPhase.submitInserting id v) :
      Step c (Label.submitInsert id)
        ⟨{ c.pool with
             m_task_status :=
               status_upd c.pool.m_task_status id
                 (fun e => { e with status := Status.Waiting }) },
         CallerPhase.running⟩
  | submitRejected (c : Config) (v : Nat)
      (hc : c.caller = CallerPhase.running)
      (hw : working_unsafe c.pool = false) :
      Step c (Label.submitRejected v USIZE_MAX) c
  | dequeue (c : Config) (w id v : Nat) (rest : List (Nat × Nat))
      (hw : c.pool.m_workers.get? w = some WorkerState.idle)
      (hq : c.pool.m_tasks.items = (id, v) :: rest) :
      Step c (Label.dequeue w id)
        ⟨{ c.pool with
             m_tasks := ⟨rest, c.pool.m_tasks.next_id, c.pool.m_tasks.tasks_added⟩,
             m_workers := c.pool.m_workers.set w (WorkerState.gotTask id v) }, c.caller⟩
  | workerExit (c : Config) (w : Nat)
      (hw : c.pool.m_workers.get? w = some WorkerState.idle)
      (hq : c.pool.m_tasks.items = [])
      (ht : c.pool.m_terminated = true) :
      Step c (Label.workerExit w)
        ⟨{ c.pool with m_workers := c.pool.m_workers.set w WorkerState.exited }, c.caller⟩
  | markWorking (c : Config) (w id v : Nat)
      (hw : c.pool.m_workers.get? w = some (WorkerState.gotTask id v)) :
      Step c (Label.markWorking w id)
        ⟨{ c.pool with
             m_task_status :=
               status_upd c.pool.m_task_status id
                 (fun e => { e with status := Status.Working }),
             m_workers := c.pool.m_workers.set w (WorkerState.working id v) }, c.caller⟩
  | writeResult (c : Config) (w id v : Nat)
      (hw : c.pool.m_workers.get? w = some (WorkerState.working id v)) :
      Step c (Label.writeResult w id v)
        ⟨{ c.pool with
             m_task_status :=
               status_upd c.pool.m_task_status id (fun e => { e with result := v }),
             m_workers := c.pool.m_workers.set w (WorkerState.wroteResult id v) }, c.caller⟩
  | markFinished (c : Config) (w id v : Nat)
      (hw : c.pool.m_workers.get? w = some (WorkerState.wroteResult id v)) :
      Step c (Label.markFinished w id)
        ⟨{ c.pool with
             m_task_status :=
               status_upd c.pool.m_task_status id
                 (fun e => { e with status := Status.Finished }),
             m_workers := c.pool.m_workers.set w WorkerState.idle }, c.caller⟩
  | graceBegin (c : Config)
      (hc : c.caller = CallerPhase.running)
      (hw : working_unsafe c.pool = true) :
      Step c Label.graceBegin
        ⟨{ c.pool with m_terminated := true }, CallerPhase.joining⟩
  | graceNoop (c : Config)
      (hc : c.caller = CallerPhase.running)
      (hw : working_unsafe c.pool = false) :
      Step c Label.graceNoop
        ⟨{ c.pool with m_workers := [], m_terminated := false, m_initialized := false },
         CallerPhase.running⟩
  | nowBegin (c : Config)
      (hc : c.caller = CallerPhase.running)
      (hw : working_unsafe c.pool = true) :
      Step c Label.nowBegin
        ⟨{ c.pool with m_tasks := c.pool.m_tasks.clear, m_terminated := true },
         CallerPhase.joining⟩
  | nowNoop (c : Config)
      (hc : c.caller = CallerPhase.running)
      (hw : working_unsafe c.pool = false) :
      Step c Label.nowNoop
        ⟨{ c.pool with
             m_tasks := c.pool.m_tasks.clear,
             m_workers := [],
             m_terminated := false,
             m_initialized := false },
         CallerPhase.running⟩
  | terminateEnd (c : Config)
      (hc : c.caller = CallerPhase.joining)
      (hall : ∀ w ∈ c.pool.m_workers, w = WorkerState.exited) :
      Step c Label.terminateEnd
        ⟨{ c.pool with m_workers := [], m_terminated := false, m_initialized := false },
         CallerPhase.running⟩
  | initStep (c : Config) (n : Nat) (d : Bool)
      (hc : c.caller = CallerPhase.running) :
      Step c (Label.initStep n d) ⟨initializePool c.pool n d, c.caller⟩

/-- Finite executions: a trace of labelled steps. -/
inductive Steps : Config → List Label → Config → Prop
  | refl (c : Config) : Steps c [] c
  | cons {c c1 c2 : Config} {l : Label} {tr : List Label}
      (h : Step c l c1) (hs : Steps c1 tr c2) : Steps c (l :: tr) c2

/-- The initial configuration: a freshly constructed thread_pool object and the
caller about to run. -/
def initConfig : Config :=
  ⟨⟨⟨[], 0, 0⟩, fun _ => none, [], false, false⟩, CallerPhase.running⟩

/-- The ids returned by the successful submissions of a trace, in submission
order. -/
def submittedIds (tr : List Label) : List Nat :=
  tr.filterMap (fun l =>
    match l with
    | Label.submitOk _ id => some id
    | _ => none)

/-- The numeric rank of a task state along the Waiting → Working → Finished
progression. -/
def statusRank (st : Status) : Nat :=
  match st with
  | Status.Waiting => 0
  | Status.Working => 1
  | Status.Finished => 2

/-- Task `id` is dequeued by some worker during the trace. -/
def dequeuedIn (tr : List Label) (id : Nat) : Prop :=
  ∃ w, Label.dequeue w id ∈ tr

/-- A sample status table holding exactly one entry, for id 0. -/
def tblWith (ts : TaskStatus) : Nat → Option TaskStatus :=
  fun j => if j = 0 then some ts else none

/-- A sample running pool with no entries. -/
def poolEmpty : PoolState := ⟨⟨[], 0, 0⟩, fun _ => none, [], true, false⟩

/-- A sample uninitialized pool (fresh object before any initialize call). -/
def poolDead : PoolState := ⟨⟨[], 0, 0⟩, fun _ => none, [], false, false⟩

/-- A sample running pool whose only entry, id 0, has the given status. -/
def poolWith (ts : TaskStatus) : PoolState :=
  ⟨⟨[], 1, 1⟩, tblWith ts, [], true, false⟩

/-- The configuration at which the graceful shutdown of the C1 counterexample run
is called: one idle worker, and id 0 cancelled by an earlier immediate shutdown
(its entry Waiting, the queue empty). -/
def cexCallCfg : Config :=
  ⟨⟨⟨[], 1, 1⟩, tblWith ⟨Status.Waiting, 0⟩, [WorkerState.idle], true, false⟩,
   CallerPhase.running⟩

/-- The configuration of the C1 counterexample run after the graceful shutdown
returned: id 0 still Waiting. -/
def cexFinalCfg : Config :=
  ⟨⟨⟨[], 1, 1⟩, tblWith ⟨Status.Waiting, 0⟩, [], false, false⟩, CallerPhase.running⟩

/-- A sample reachable configuration: one worker that has just popped task 0 (value
5) from the queue and not yet marked it Working. -/
def c4SampleCfg : Config :=
  ⟨⟨⟨[], 1, 1⟩,
    status_upd (fun _ => none) 0 (fun e => { e with status := Status.Waiting }),
    [WorkerState.gotTask 0 5], true, false⟩, CallerPhase.running⟩

/-- The global state invariant of the pool, preserved by every step from the
initial configuration.  Status entries and queued items have ids below the queue's
counter, and queued ids are strictly increasing; a queued item either has the
default Waiting entry or — when it is the item whose unlocked status insertion
(line 144 of thread_pool.h) is still pending — no entry yet, and the same holds
for the id a worker has just popped; once the owning worker has written the
Working mark (line 111) or the result (line 122), the entry carries exactly those
writes unless the pending insertion raced it and overwrote the status back to
Waiting; a worker that popped a task owns an id that is no longer queued; task
ownership is exclusive; Working entries are owned by some worker; during a join
the terminated flag is up and a fully exited worker set means a drained queue;
outside a join no worker has exited and the terminated flag is down; an
initialized pool has workers; while the caller runs normally an uninitialized pool
has none; a pending status insertion concerns the most recently assigned id, and
either in-submission phase requires an initialized pool. -/
structure Inv (c : Config) : Prop where
  statusBound : ∀ id ts, c.pool.m_task_status id = some ts → id < c.pool.m_tasks.next_id
  queueBound : ∀ p ∈ c.pool.m_tasks.items, p.1 < c.pool.m_tasks.next_id
  queueWaiting : ∀ p ∈ c.pool.m_tasks.items,
    c.pool.m_task_status p.1 = some ⟨Status.Waiting, 0⟩ ∨
    (c.pool.m_task_status p.1 = none ∧
      ∃ v2, c.caller = CallerPhase.submitInserting p.1 v2)
  queueSorted : c.pool.m_tasks.items.Pairwise (fun a b => a.1 < b.1)
  gotStatus : ∀ w id v, c.pool.m_workers.get? w = some (WorkerState.gotTask id v) →
    (c.pool.m_task_status id = some ⟨Status.Waiting, 0⟩ ∨
      (c.pool.m_task_status id = none ∧
        ∃ v2, c.caller = CallerPhase.submitInserting id v2)) ∧
    id < c.pool.m_tasks.next_id ∧ id ∉ queueIds c.pool
  workingStatus : ∀ w id v, c.pool.m_workers.get? w = some (WorkerState.working id v) →
    (c.pool.m_task_status id = some ⟨Status.Working, 0⟩ ∨
     c.pool.m_task_status id = some ⟨Status.Waiting, 0⟩) ∧
    id < c.pool.m_tasks.next_id ∧ id ∉ queueIds c.pool
  wroteStatus : ∀ w id v, c.pool.m_workers.get? w = some (WorkerState.wroteResult id v) →
    (c.pool.m_task_status id = some ⟨Status.Working, v⟩ ∨
     c.pool.m_task_status id = some ⟨Status.Waiting, v⟩) ∧
    id < c.pool.m_tasks.next_id ∧ id ∉ queueIds c.pool
  holderUnique : ∀ w1 w2 id, holdsAt c w1 id → holdsAt c w2 id → w1 = w2
  workingOwned : ∀ id ts, c.pool.m_task_status id = some ts →
    ts.status = Status.Working → ∃ w, holdsAt c w id
  joinTerm : c.caller = CallerPhase.joining → c.pool.m_terminated = true
  joinDrain : c.caller = CallerPhase.joining →
    (∀ st ∈ c.pool.m_workers, st = WorkerState.exited) → c.pool.m_tasks.items = []
  outExit : c.caller ≠ CallerPhase.joining →
    ∀ st ∈ c.pool.m_workers, st ≠ WorkerState.exited
  outTerm : c.caller ≠ CallerPhase.joining → c.pool.m_terminated = false
  initNonempty : c.pool.m_initialized = true → c.pool.m_workers ≠ []
  uninitEmpty : c.caller = CallerPhase.running → c.pool.m_initialized = false →
    c.pool.m_workers = []
  phaseFresh : ∀ j v, c.caller = CallerPhase.submitInserting j v →
    j + 1 = c.pool.m_tasks.next_id
  phaseInit : c.caller ≠ CallerPhase.running → c.caller ≠ CallerPhase.joining →
    c.pool.m_initialized = true

/-- Task `id` is bound to end up Finished once the pool drains: its entry is
already Finished, or some worker currently owns it, or it is still pending in the
queue.  Preserved by every step taken while the caller is blocked joining. -/
def willFinish (c : Config) (id : Nat) : Prop :=
  (∃ r, c.pool.m_task_status id = some ⟨Status.Finished, r⟩) ∨
  (∃ w, holdsAt c w id) ∨ id ∈ queueIds c.pool

/-- The status table of the C4/C10 race run just before the pending insertion
lands: the worker dequeued task 0, marked it Working, wrote result 5 and marked it
Finished, all before line 144 of the submitting `add_task` call executed. -/
def c4RaceTbl : Nat → Option TaskStatus :=
  status_upd
    (status_upd
      (status_upd (fun _ => none) 0 (fun e => { e with status := Status.Working }))
      0 (fun e => { e with result := 5 }))
    0 (fun e => { e with status := Status.Finished })

/-- The race configuration: task 0 already Finished with result 5 while the
submitting caller still has its line-144 status insertion for id 0 pending. -/
def c4RaceCfg : Config :=
  ⟨⟨⟨[], 1, 1⟩, c4RaceTbl, [WorkerState.idle], true, false⟩,
   CallerPhase.submitInserting 0 5⟩

/-- The configuration after the pending insertion lands: the Finished entry of
task 0 has been overwritten back to Waiting, keeping the stale result 5. -/
def c4RacedCfg : Config :=
  ⟨⟨⟨[], 1, 1⟩,
    status_upd c4RaceTbl 0 (fun e => { e with status := Status.Waiting }),
    [WorkerState.idle], true, false⟩,
   CallerPhase.running⟩

end ThreadPool

namespace ThreadPool

/-- Lookup in an updated status table at the updated id. -/
theorem status_upd_self (m : Nat → Option TaskStatus) (id : Nat) (f : TaskStatus → TaskStatus) :
    status_upd m id f id = some (f ((m id).getD defaultTaskStatus)) := by
  simp [status_upd]

/-- Lookup in an updated status table away from the updated id. -/
theorem status_upd_ne {j id : Nat} (m : Nat → Option TaskStatus) (f : TaskStatus → TaskStatus)
    (h : j ≠ id) : status_upd m id f j = m j := by
  simp [status_upd, h]

/-- A status table whose entries all have ids below n has no entry at n. -/
theorem lookup_ge_none {c : Config} (hi : Inv c) :
    c.pool.m_task_status c.pool.m_tasks.next_id = none := by
  cases h : c.pool.m_task_status c.pool.m_tasks.next_id with
  | none => rfl
  | some ts => exact absurd (hi.statusBound _ ts h) (Nat.lt_irrefl _)

/-- `initialize` never changes the task queue. -/
theorem initializePool_m_tasks (s : PoolState) (n : Nat) (d : Bool) :
    (initializePool s n d).m_tasks = s.m_tasks := by
  unfold initializePool
  split <;> rfl

/-- The next task id never decreases across a step, and grows by at most one. -/
theorem step_next_id_bounds {c c1 : Config} {l : Label} (h : Step c l c1) :
    c.pool.m_tasks.next_id ≤ c1.pool.m_tasks.next_id ∧
    c1.pool.m_tasks.next_id ≤ c.pool.m_tasks.next_id + 1 := by
  cases h <;>
    simp [submit_update, task_queue.emplace, task_queue.clear, initializePool] <;>
    split <;> simp

/-- The next task id never decreases along a trace. -/
theorem steps_next_id_mono {c0 c : Config} {tr : List Label} (h : Steps c0 tr c) :
    c0.pool.m_tasks.next_id ≤ c.pool.m_tasks.next_id := by
  induction h with
  | refl => exact Nat.le_refl _
  | cons hstep _ ih => exact Nat.le_trans (step_next_id_bounds hstep).1 ih

/-- The next task id grows by at most the trace length. -/
theorem steps_next_id_le {c0 c : Config} {tr : List Label} (h : Steps c0 tr c) :
    c.pool.m_tasks.next_id ≤ c0.pool.m_tasks.next_id + tr.length := by
  induction h with
  | refl => simp
  | cons hstep _ ih =>
    have h1 := (step_next_id_bounds hstep).2
    simp only [List.length_cons]
    omega

/-- Every id returned by a successful submission of a trace lies between the
starting and the final value of the queue's id counter. -/
theorem steps_submitted_bounds {c0 c : Config} {tr : List Label} (h : Steps c0 tr c) :
    ∀ id ∈ submittedIds tr,
      c0.pool.m_tasks.next_id ≤ id ∧ id < c.pool.m_tasks.next_id := by
  induction h with
  | refl => simp [submittedIds]
  | cons hstep hrest ih =>
    intro id hid
    cases hstep
    case submitOk c v hc =>
      simp only [submittedIds, List.filterMap_cons] at hid
      rcases List.mem_cons.mp hid with h0 | h0
      · subst h0
        refine ⟨Nat.le_refl _, ?_⟩
        have h2 := steps_next_id_mono hrest
        simp [task_queue.emplace] at h2
        omega
      · have h3 := ih id h0
        simp [task_queue.emplace] at h3
        omega
    all_goals
      simp only [submittedIds, List.filterMap_cons] at hid
      simpa only [initializePool_m_tasks] using ih id hid

/-- The successful submissions of any trace return strictly increasing ids. -/
theorem steps_submitted_pairwise {c0 c : Config} {tr : List Label} (h : Steps c0 tr c) :
    (submittedIds tr).Pairwise (· < ·) := by
  induction h with
  | refl => simp [submittedIds]
  | cons hstep hrest ih =>
    cases hstep
    case submitOk c v hc =>
      simp only [submittedIds, List.filterMap_cons]
      refine List.Pairwise.cons ?_ ih
      intro b hb
      have h2 := steps_submitted_bounds hrest b hb
      simp [task_queue.emplace] at h2
      omega
    all_goals
      simpa only [submittedIds, List.filterMap_cons] using ih

/-- C5: for every sequence of successful submissions while the pool is Running, the
returned task ids are pairwise distinct and strictly increasing in submission
order, each unique for the pool's lifetime: along any execution from the initial
configuration, the list of ids returned by successful `add_task` calls is strictly
increasing. -/
theorem c5_submitted_ids_strictly_increasing {tr : List Label} {c : Config}
    (h : Steps initConfig tr c) : (submittedIds tr).Pairwise (· < ·) :=
  steps_submitted_pairwise h

/-- Witness for C5 on a concrete run: two submissions to a running pool return the
strictly increasing ids 0 and 1. -/
theorem c5_witness :
    (submittedIds
      [Label.initStep 2 false, Label.submitBegin 7, Label.submitOk 7 0,
       Label.submitInsert 0, Label.submitBegin 9, Label.submitOk 9 1,
       Label.submitInsert 1]).Pairwise (· < ·) :=
  c5_submitted_ids_strictly_increasing
    (Steps.cons (Step.initStep initConfig 2 false rfl)
      (Steps.cons (Step.submitBegin _ 7 rfl rfl)
        (Steps.cons (Step.submitOk _ 7 rfl)
          (Steps.cons (Step.submitInsert _ 0 7 rfl)
            (Steps.cons (Step.submitBegin _ 9 rfl rfl)
              (Steps.cons (Step.submitOk _ 9 rfl)
                (Steps.cons (Step.submitInsert _ 1 9 rfl) (Steps.refl _))))))))

/-- C3: `add_task` on a pool that is not working returns the rejection sentinel
(the maximum representable id, (size_t)(-1)) and changes nothing; on a working pool
it enqueues the task at the back of the queue with the fresh id, records status
Waiting for that id, and notifies exactly one waiting worker.  The sentinel is
never an id a successful submission returned, in any execution of fewer than
2^64 - 1 steps. -/
theorem c3_add_task_rejects_or_enqueues :
    (∀ (s : PoolState) (v : Nat),
      ( working_unsafe s = false → add_task s v = (s, USIZE_MAX)) ∧
      ( working_unsafe s = true →
        add_task s v = (submit_update s v, s.m_tasks.next_id) ∧
        (submit_update s v).m_tasks.items = s.m_tasks.items ++ [(s.m_tasks.next_id, v)] ∧
        ((submit_update s v).m_task_status s.m_tasks.next_id).map TaskStatus.status =
          some Status.Waiting ∧
        (add_task_events true).count ⟨Action.notifyOne, LockMode.nolock⟩ = 1 ∧
        ⟨Action.notifyOne, LockMode.nolock⟩ ∉ add_task_events false)) ∧
    ∀ (tr : List Label) (c : Config), Steps initConfig tr c → tr.length < USIZE_MAX →
      USIZE_MAX ∉ submittedIds tr := by
  constructor
  · intro s v
    constructor
    · intro h
      simp [add_task, h]
    · intro h
      refine ⟨by simp [add_task, h], ?_, ?_, by decide, by decide⟩
      · simp [submit_update, task_queue.emplace]
      · simp [submit_update, status_upd]
  · intro tr c h hlen hmem
    have h1 := steps_submitted_bounds h USIZE_MAX hmem
    have h2 := steps_next_id_le h
    simp [initConfig] at h1 h2
    omega

/-- Witness for C3: a submission to an uninitialized pool returns the sentinel; a
submission to a running pool returns the fresh id 0; the sentinel is not among the
ids returned in a concrete two-step run. -/
theorem c3_witness :
    add_task poolDead 7 = (poolDead, USIZE_MAX) ∧
    add_task poolEmpty 7 = (submit_update poolEmpty 7, 0) ∧
    USIZE_MAX ∉ submittedIds
      [Label.initStep 1 false, Label.submitBegin 7, Label.submitOk 7 0,
       Label.submitInsert 0] := by
  refine ⟨(c3_add_task_rejects_or_enqueues.1 poolDead 7).1 rfl,
          ((c3_add_task_rejects_or_enqueues.1 poolEmpty 7).2 rfl).1,
          c3_add_task_rejects_or_enqueues.2 _ _
            (Steps.cons (Step.initStep initConfig 1 false rfl)
              (Steps.cons (Step.submitBegin _ 7 rfl rfl)
                (Steps.cons (Step.submitOk _ 7 rfl)
                  (Steps.cons (Step.submitInsert _ 0 7 rfl) (Steps.refl _))))) ?_⟩
  show 4 < USIZE_MAX
  norm_num [USIZE_MAX]

/-- C7: `get_status` reports an unknown id by the message "No such task exists."
and by no other outcome; for a known id it reports exactly one of the three states:
Waiting prints the in-queue message and returns the (still default) result, Working
prints the processing message and returns no usable result (0), Finished prints
nothing and returns the stored result. -/
theorem c7_get_status_outcomes :
    ∀ (s : PoolState) (id : Nat),
      (s.m_task_status id = none ↔ (get_status s id).1 = some ConsoleMsg.noSuchTask) ∧
      (∀ ts, s.m_task_status id = some ts →
        (ts.status = Status.Waiting →
          get_status s id = (some (ConsoleMsg.inQueue id), ts.result)) ∧
        (ts.status = Status.Working →
          get_status s id = (some (ConsoleMsg.processing id), 0)) ∧
        (ts.status = Status.Finished → get_status s id = (none, ts.result))) := by
  intro s id
  constructor
  · cases h : s.m_task_status id with
    | none => simp [get_status, h]
    | some ts =>
      cases hs : ts.status <;> simp [get_status, h, hs]
  · intro ts h
    cases hs : ts.status <;> simp [get_status, h, hs]

/-- Witness for C7 at concrete pools: the four outcomes on concrete single-entry
status tables. -/
theorem c7_witness :
    get_status (poolWith ⟨Status.Waiting, 0⟩) 0 = (some (ConsoleMsg.inQueue 0), 0) ∧
    get_status (poolWith ⟨Status.Working, 0⟩) 0 = (some (ConsoleMsg.processing 0), 0) ∧
    get_status (poolWith ⟨Status.Finished, 42⟩) 0 = (none, 42) ∧
    (get_status (poolWith ⟨Status.Finished, 42⟩) 1).1 = some ConsoleMsg.noSuchTask := by
  refine ⟨((c7_get_status_outcomes (poolWith ⟨Status.Waiting, 0⟩) 0).2 _ rfl).1 rfl,
          ((c7_get_status_outcomes (poolWith ⟨Status.Working, 0⟩) 0).2 _ rfl).2.1 rfl,
          ((c7_get_status_outcomes (poolWith ⟨Status.Finished, 42⟩) 0).2 _ rfl).2.2 rfl,
          (c7_get_status_outcomes (poolWith ⟨Status.Finished, 42⟩) 1).1.mp rfl⟩

/-- C9: `initialize` is a silent no-op when the pool is already initialized (or its
terminated flag is set); otherwise it appends `worker_count` idle workers and marks
the pool initialized exactly when the resulting worker vector is nonempty, so
`worker_count ≥ 1` initializes the pool and `worker_count = 0` leaves a fresh pool
uninitialized, with subsequent submissions rejected. -/
theorem c9_initialize_behavior :
    ∀ (s : PoolState) (n : Nat) (d : Bool),
      (s.m_initialized = true → initializePool s n d = s) ∧
      (s.m_terminated = true → initializePool s n d = s) ∧
      (s.m_initialized = false → s.m_terminated = false →
        (initializePool s n d).m_workers =
          s.m_workers ++ List.replicate n WorkerState.idle ∧
        (1 ≤ n → (initializePool s n d).m_initialized = true) ∧
        (n = 0 → s.m_workers = [] →
          (initializePool s n d).m_initialized = false ∧
          ∀ v, add_task (initializePool s n d) v = (initializePool s n d, USIZE_MAX))) := by
  intro s n d
  refine ⟨fun h => by simp [initializePool, h], fun h => by simp [initializePool, h], ?_⟩
  intro h1 h2
  refine ⟨by simp [initializePool, h1, h2], ?_, ?_⟩
  · intro hn
    simp only [initializePool, h1, h2, Bool.or_self, if_neg Bool.false_ne_true]
    simp [List.isEmpty_eq_true, List.replicate_eq_nil_iff]
    omega
  · intro hn hw
    subst hn
    constructor
    · simp [initializePool, h1, h2, hw]
    · intro v
      have hwu : working_unsafe (initializePool s 0 d) = false := by
        simp [initializePool, h1, h2, hw, working_unsafe]
      simp [add_task, hwu]

/-- Witness for C9 at concrete pools: initializing an already-initialized pool is
the identity; initializing a fresh pool with 3 workers spawns 3 idle workers and
marks it initialized; with 0 workers the pool stays uninitialized and rejects
submissions. -/
theorem c9_witness :
    initializePool (poolWith ⟨Status.Finished, 3⟩) 4 true = poolWith ⟨Status.Finished, 3⟩ ∧
    (initializePool poolDead 3 false).m_workers = List.replicate 3 WorkerState.idle ∧
    (initializePool poolDead 3 false).m_initialized = true ∧
    (initializePool poolDead 0 false).m_initialized = false ∧
    add_task (initializePool poolDead 0 false) 5 = (initializePool poolDead 0 false, USIZE_MAX) := by
  refine ⟨(c9_initialize_behavior (poolWith ⟨Status.Finished, 3⟩) 4 true).1 rfl,
          ?_, ?_, ?_, ?_⟩
  · have h := ((c9_initialize_behavior poolDead 3 false).2.2 rfl rfl).1
    simpa [poolDead] using h
  · exact ((c9_initialize_behavior poolDead 3 false).2.2 rfl rfl).2.1 (by omega)
  · exact (((c9_initialize_behavior poolDead 0 false).2.2 rfl rfl).2.2 rfl rfl).1
  · exact (((c9_initialize_behavior poolDead 0 false).2.2 rfl rfl).2.2 rfl rfl).2 5

/-- C8 counterexample: the enqueue performed by `add_task` on a working pool (event
index 1 of its successful path) is a structural mutation executed with no lock
held, not under the exclusive lock: the read lock's scope closes at line 140 of
thread_pool.h, before `m_tasks.emplace` at line 143. -/
theorem c8_counterexample :
    (add_task_events true).get? 1 = some ⟨Action.emplaceTask, LockMode.nolock⟩ ∧
    structuralMutation Action.emplaceTask = true ∧
    LockMode.nolock ≠ LockMode.exclusive := by
  decide

/-- C8 amended: the dequeue, the queue clear, the terminated-flag write, the whole
initialize body and the whole not-working branches of both terminates run under the
exclusive write lock; but `add_task` performs its structural mutations (the enqueue
and the status-table insertion) with no lock held after releasing its shared lock,
and the post-join bookkeeping of both terminates (clearing the worker vector and
resetting the flags) also runs with no lock held. -/
theorem c8_locking_discipline :
    ∀ b : Bool,
      (∀ e ∈ routine_iteration_events b,
        structuralMutation e.action = true → e.lock = LockMode.exclusive) ∧
      (∀ e ∈ initialize_events, e.lock = LockMode.exclusive) ∧
      (∀ e ∈ terminate_now_events b,
        e.action = Action.clearQueue → e.lock = LockMode.exclusive) ∧
      (∀ e ∈ terminate_events b,
        e.action = Action.setTerminated → e.lock = LockMode.exclusive) ∧
      (∀ e ∈ terminate_now_events b,
        e.action = Action.setTerminated → e.lock = LockMode.exclusive) ∧
      (∀ e ∈ terminate_events false, e.lock = LockMode.exclusive) ∧
      (∀ e ∈ terminate_now_events false, e.lock = LockMode.exclusive) ∧
      (∀ e ∈ add_task_events b,
        structuralMutation e.action = true → e.lock = LockMode.nolock) ∧
      (∀ e ∈ terminate_events true,
        e.action = Action.clearWorkers ∨ e.action = Action.resetFlags →
          e.lock = LockMode.nolock) ∧
      (∀ e ∈ terminate_now_events true,
        e.action = Action.clearWorkers ∨ e.action = Action.resetFlags →
          e.lock = LockMode.nolock) := by
  decide

/-- Updating one list index leaves lookups at other indices unchanged. -/
theorem get?_set_ne {α : Type} {l : List α} {i j : Nat} (a : α) (h : i ≠ j) :
    (l.set i a).get? j = l.get? j := by
  simp [List.get?_eq_getElem?, List.getElem?_set, h]

/-- Updating a list index within bounds makes the lookup there the new value. -/
theorem get?_set_self {α : Type} {l : List α} {i : Nat} {a : α} (h : i < l.length) :
    (l.set i a).get? i = some a := by
  simp [List.get?_eq_getElem?, List.getElem?_set, h]

/-- Case analysis for a lookup in a list with one updated index. -/
theorem get?_set_eq_some {α : Type} {l : List α} {i j : Nat} {a b : α}
    (h : (l.set i a).get? j = some b) :
    (i = j ∧ b = a ∧ i < l.length) ∨ (i ≠ j ∧ l.get? j = some b) := by
  by_cases hij : i = j
  · subst hij
    left
    have hlen : i < l.length := by
      rcases List.get?_eq_some.mp h with ⟨hl, _⟩
      simpa [List.length_set] using hl
    rw [get?_set_self hlen] at h
    cases h
    exact ⟨rfl, rfl, hlen⟩
  · right
    rw [get?_set_ne a hij] at h
    exact ⟨hij, h⟩

/-- Case analysis for task ownership in a worker list with one updated index. -/
theorem holdsIn_set_cases {l : List WorkerState} {w w3 id0 : Nat} {x : WorkerState}
    (h : holdsIn (l.set w x) w3 id0) :
    (w3 = w ∧ w < l.length ∧
      ∃ v, x = WorkerState.gotTask id0 v ∨ x = WorkerState.working id0 v ∨
           x = WorkerState.wroteResult id0 v) ∨
    (w3 ≠ w ∧ holdsIn l w3 id0) := by
  rcases h with ⟨v3, h3 | h3 | h3⟩ <;>
    rcases get?_set_eq_some h3 with ⟨hww, hbb, hlen⟩ | ⟨hww, h4⟩
  · exact Or.inl ⟨hww.symm, hlen, v3, Or.inl hbb.symm⟩
  · exact Or.inr ⟨fun he => hww he.symm, v3, Or.inl h4⟩
  · exact Or.inl ⟨hww.symm, hlen, v3, Or.inr (Or.inl hbb.symm)⟩
  · exact Or.inr ⟨fun he => hww he.symm, v3, Or.inr (Or.inl h4)⟩
  · exact Or.inl ⟨hww.symm, hlen, v3, Or.inr (Or.inr hbb.symm)⟩
  · exact Or.inr ⟨fun he => hww he.symm, v3, Or.inr (Or.inr h4)⟩

/-- An owning worker state written at an in-bounds index yields ownership. -/
theorem holdsIn_set_self {l : List WorkerState} {w id0 : Nat} {x : WorkerState}
    (hlen : w < l.length)
    (hx : ∃ v, x = WorkerState.gotTask id0 v ∨ x = WorkerState.working id0 v ∨
          x = WorkerState.wroteResult id0 v) :
    holdsIn (l.set w x) w id0 := by
  rcases hx with ⟨v, h | h | h⟩ <;> subst h
  · exact ⟨v, Or.inl (get?_set_self hlen)⟩
  · exact ⟨v, Or.inr (Or.inl (get?_set_self hlen))⟩
  · exact ⟨v, Or.inr (Or.inr (get?_set_self hlen))⟩

/-- Ownership by another worker survives an update at index `w`. -/
theorem holdsIn_set_other {l : List WorkerState} {w w3 id0 : Nat} {x : WorkerState}
    (hne : w3 ≠ w) (h : holdsIn l w3 id0) : holdsIn (l.set w x) w3 id0 := by
  rcases h with ⟨v, h | h | h⟩
  · exact ⟨v, Or.inl (by rw [get?_set_ne x (fun he => hne he.symm)]; exact h)⟩
  · exact ⟨v, Or.inr (Or.inl (by rw [get?_set_ne x (fun he => hne he.symm)]; exact h))⟩
  · exact ⟨v, Or.inr (Or.inr (by rw [get?_set_ne x (fun he => hne he.symm)]; exact h))⟩

/-- A worker owning a task has facts recorded by the invariant: the id is not
queued and is below the id counter. -/
theorem holder_facts {c : Config} (hi : Inv c) {w id : Nat} (h : holdsAt c w id) :
    id ∉ queueIds c.pool ∧ id < c.pool.m_tasks.next_id := by
  rcases h with ⟨v, h | h | h⟩
  · have h0 := hi.gotStatus w id v h
    exact ⟨h0.2.2, h0.2.1⟩
  · have h0 := hi.workingStatus w id v h
    exact ⟨h0.2.2, h0.2.1⟩
  · have h0 := hi.wroteStatus w id v h
    exact ⟨h0.2.2, h0.2.1⟩

/-- An idle worker owns no task. -/
theorem idle_not_holder {c : Config} {w id : Nat}
    (hw : c.pool.m_workers.get? w = some WorkerState.idle) : ¬ holdsAt c w id := by
  rintro ⟨v, h | h | h⟩ <;> rw [hw] at h <;> cases h

/-- Preservation of the invariant by a dequeue. -/
theorem inv_dequeue {c : Config} (w id v : Nat) (rest : List (Nat × Nat))
    (hw : c.pool.m_workers.get? w = some WorkerState.idle)
    (hq : c.pool.m_tasks.items = (id, v) :: rest) (hi : Inv c) :
    Inv ⟨{ c.pool with
             m_tasks := ⟨rest, c.pool.m_tasks.next_id, c.pool.m_tasks.tasks_added⟩,
             m_workers := c.pool.m_workers.set w (WorkerState.gotTask id v) }, c.caller⟩ := by
  have hlen : w < c.pool.m_workers.length := by
    rcases List.get?_eq_some.mp hw with ⟨hl, _⟩
    exact hl
  have hhead : (id, v) ∈ c.pool.m_tasks.items := by
    rw [hq]
    exact List.mem_cons_self _ _
  have hheadW := hi.queueWaiting _ hhead
  have hheadB : id < c.pool.m_tasks.next_id := hi.queueBound _ hhead
  have hrest : ∀ b ∈ rest, id < b.1 := by
    have := hi.queueSorted
    rw [hq] at this
    exact (List.pairwise_cons.mp this).1
  have hnotrest : id ∉ rest.map Prod.fst := by
    intro hmem
    rcases List.mem_map.mp hmem with ⟨b, hb, hb1⟩
    exact absurd hb1 (Nat.ne_of_gt (hrest b hb))
  have hidq : id ∈ queueIds c.pool := by
    simp [queueIds, hq]
  refine ⟨hi.statusBound, ?_, ?_, ?_, ?_, ?_, ?_, ?_, ?_,
    hi.joinTerm, ?_, ?_, hi.outTerm, ?_, ?_, hi.phaseFresh, hi.phaseInit⟩
  · intro p hp
    exact hi.queueBound p (by rw [hq]; exact List.mem_cons_of_mem _ hp)
  · intro p hp
    exact hi.queueWaiting p (by rw [hq]; exact List.mem_cons_of_mem _ hp)
  · have := hi.queueSorted
    rw [hq] at this
    exact (List.pairwise_cons.mp this).2
  · intro w2 id2 v2 h2
    rcases get?_set_eq_some h2 with ⟨hww, hbb, _⟩ | ⟨hww, h3⟩
    · cases hbb
      exact ⟨hheadW, hheadB, hnotrest⟩
    · have h0 := hi.gotStatus w2 id2 v2 h3
      refine ⟨h0.1, h0.2.1, ?_⟩
      intro hmem
      apply h0.2.2
      simp only [queueIds] at hmem ⊢
      rw [hq]
      simp only [List.map_cons, List.mem_cons]
      exact Or.inr hmem
  · intro w2 id2 v2 h2
    rcases get?_set_eq_some h2 with ⟨hww, hbb, _⟩ | ⟨hww, h3⟩
    · cases hbb
    · have h0 := hi.workingStatus w2 id2 v2 h3
      refine ⟨h0.1, h0.2.1, ?_⟩
      intro hmem
      apply h0.2.2
      simp only [queueIds] at hmem ⊢
      rw [hq]
      simp only [List.map_cons, List.mem_cons]
      exact Or.inr hmem
  · intro w2 id2 v2 h2
    rcases get?_set_eq_some h2 with ⟨hww, hbb, _⟩ | ⟨hww, h3⟩
    · cases hbb
    · have h0 := hi.wroteStatus w2 id2 v2 h3
      refine ⟨h0.1, h0.2.1, ?_⟩
      intro hmem
      apply h0.2.2
      simp only [queueIds] at hmem ⊢
      rw [hq]
      simp only [List.map_cons, List.mem_cons]
      exact Or.inr hmem
  · intro w1 w2 id0 h1 h2
    have hcase : ∀ w3, holdsAt ⟨{ c.pool with
        m_tasks := ⟨rest, c.pool.m_tasks.next_id, c.pool.m_tasks.tasks_added⟩,
        m_workers := c.pool.m_workers.set w (WorkerState.gotTask id v) }, c.caller⟩ w3 id0 →
        (w3 = w ∧ id0 = id) ∨ holdsAt c w3 id0 := by
      rintro w3 ⟨v3, h3 | h3 | h3⟩ <;>
        rcases get?_set_eq_some h3 with ⟨hww, hbb, _⟩ | ⟨hww, h4⟩
      · cases hbb
        exact Or.inl ⟨hww.symm, rfl⟩
      · exact Or.inr ⟨v3, Or.inl h4⟩
      · cases hbb
      · exact Or.inr ⟨v3, Or.inr (Or.inl h4)⟩
      · cases hbb
      · exact Or.inr ⟨v3, Or.inr (Or.inr h4)⟩
    rcases hcase w1 h1 with ⟨hw1, hid1⟩ | hold1 <;>
      rcases hcase w2 h2 with ⟨hw2, hid2⟩ | hold2
    · rw [hw1, hw2]
    · subst hid1
      exact absurd hidq (holder_facts hi hold2).1
    · subst hid2
      exact absurd hidq (holder_facts hi hold1).1
    · exact hi.holderUnique w1 w2 id0 hold1 hold2
  · intro id2 ts h2 hst
    rcases hi.workingOwned id2 ts h2 hst with ⟨w0, hw0⟩
    have hne : w0 ≠ w := by
      intro he
      exact idle_not_holder hw (he ▸ hw0)
    rcases hw0 with ⟨v0, h0 | h0 | h0⟩
    · exact ⟨w0, v0, Or.inl (by rw [show (c.pool.m_workers.set w
        (WorkerState.gotTask id v)).get? w0 = c.pool.m_workers.get? w0 from
        get?_set_ne _ (fun he => hne he.symm)]; exact h0)⟩
    · exact ⟨w0, v0, Or.inr (Or.inl (by rw [show (c.pool.m_workers.set w
        (WorkerState.gotTask id v)).get? w0 = c.pool.m_workers.get? w0 from
        get?_set_ne _ (fun he => hne he.symm)]; exact h0))⟩
    · exact ⟨w0, v0, Or.inr (Or.inr (by rw [show (c.pool.m_workers.set w
        (WorkerState.gotTask id v)).get? w0 = c.pool.m_workers.get? w0 from
        get?_set_ne _ (fun he => hne he.symm)]; exact h0))⟩
  · intro hcall hall
    have hmem : WorkerState.gotTask id v ∈ c.pool.m_workers.set w (WorkerState.gotTask id v) :=
      List.get?_mem (get?_set_self hlen)
    cases hall _ hmem
  · intro hcall st hst
    rcases List.mem_or_eq_of_mem_set hst with h1 | h1
    · exact hi.outExit hcall st h1
    · rw [h1]
      intro he
      cases he
  · intro hI
    have h0 := hi.initNonempty hI
    intro hE
    have := congrArg List.length hE
    simp only [List.length_set] at this
    exact h0 (List.length_eq_zero.mp this)
  · intro h1 h2
    have h0 := hi.uninitEmpty h1 h2
    rw [h0] at hw
    cases hw

/-- Preservation of the invariant by a worker observing termination and exiting. -/
theorem inv_workerExit {c : Config} (w : Nat)
    (hw : c.pool.m_workers.get? w = some WorkerState.idle)
    (hq : c.pool.m_tasks.items = []) (ht : c.pool.m_terminated = true) (hi : Inv c) :
    Inv ⟨{ c.pool with m_workers := c.pool.m_workers.set w WorkerState.exited },
      c.caller⟩ := by
  refine ⟨hi.statusBound, hi.queueBound, hi.queueWaiting, hi.queueSorted,
    ?_, ?_, ?_, ?_, ?_, hi.joinTerm, ?_, ?_, hi.outTerm, ?_, ?_,
    hi.phaseFresh, hi.phaseInit⟩
  · intro w2 id2 v2 h2
    rcases get?_set_eq_some h2 with ⟨_, hbb, _⟩ | ⟨_, h3⟩
    · cases hbb
    · exact hi.gotStatus w2 id2 v2 h3
  · intro w2 id2 v2 h2
    rcases get?_set_eq_some h2 with ⟨_, hbb, _⟩ | ⟨_, h3⟩
    · cases hbb
    · exact hi.workingStatus w2 id2 v2 h3
  · intro w2 id2 v2 h2
    rcases get?_set_eq_some h2 with ⟨_, hbb, _⟩ | ⟨_, h3⟩
    · cases hbb
    · exact hi.wroteStatus w2 id2 v2 h3
  · intro w1 w2 id0 h1 h2
    have hcase : ∀ w3, holdsAt ⟨{ c.pool with
        m_workers := c.pool.m_workers.set w WorkerState.exited }, c.caller⟩ w3 id0 →
        holdsAt c w3 id0 := by
      rintro w3 ⟨v3, h3 | h3 | h3⟩ <;>
        rcases get?_set_eq_some h3 with ⟨_, hbb, _⟩ | ⟨_, h4⟩
      · cases hbb
      · exact ⟨v3, Or.inl h4⟩
      · cases hbb
      · exact ⟨v3, Or.inr (Or.inl h4)⟩
      · cases hbb
      · exact ⟨v3, Or.inr (Or.inr h4)⟩
    exact hi.holderUnique w1 w2 id0 (hcase w1 h1) (hcase w2 h2)
  · intro id2 ts h2 hst
    rcases hi.workingOwned id2 ts h2 hst with ⟨w0, hw0⟩
    have hne : w0 ≠ w := by
      intro he
      exact idle_not_holder hw (he ▸ hw0)
    rcases hw0 with ⟨v0, h0 | h0 | h0⟩
    · exact ⟨w0, v0, Or.inl (by
        rw [get?_set_ne _ (fun he => hne he.symm)]
        exact h0)⟩
    · exact ⟨w0, v0, Or.inr (Or.inl (by
        rw [get?_set_ne _ (fun he => hne he.symm)]
        exact h0))⟩
    · exact ⟨w0, v0, Or.inr (Or.inr (by
        rw [get?_set_ne _ (fun he => hne he.symm)]
        exact h0))⟩
  · intro _ _
    exact hq
  · intro hcall
    have := hi.outTerm hcall
    rw [ht] at this
    cases this
  · intro hI
    have h0 := hi.initNonempty hI
    intro hE
    have := congrArg List.length hE
    simp only [List.length_set] at this
    exact h0 (List.length_eq_zero.mp this)
  · intro h1 h2
    have h0 := hi.uninitEmpty h1 h2
    rw [h0] at hw
    cases hw

/-- Preservation of the invariant by a worker marking its task Working. -/
theorem inv_markWorking {c : Config} (w id v : Nat)
    (hw : c.pool.m_workers.get? w = some (WorkerState.gotTask id v)) (hi : Inv c) :
    Inv ⟨{ c.pool with
             m_task_status :=
               status_upd c.pool.m_task_status id
                 (fun e => { e with status := Status.Working }),
             m_workers := c.pool.m_workers.set w (WorkerState.working id v) },
      c.caller⟩ := by
  have hlen : w < c.pool.m_workers.length := by
    rcases List.get?_eq_some.mp hw with ⟨hl, _⟩
    exact hl
  have h0 := hi.gotStatus w id v hw
  have hold : holdsAt c w id := ⟨v, Or.inl hw⟩
  have hOtherNe : ∀ w2 id2, w2 ≠ w → holdsIn c.pool.m_workers w2 id2 → id2 ≠ id := by
    intro w2 id2 hne h2 he
    exact hne (hi.holderUnique w2 w id (he ▸ h2) hold)
  have hEntry : status_upd c.pool.m_task_status id
      (fun e => { e with status := Status.Working }) id = some ⟨Status.Working, 0⟩ := by
    rcases h0.1 with hE | ⟨hE, _⟩ <;> (rw [status_upd_self, hE]; rfl)
  refine ⟨?_, hi.queueBound, ?_, hi.queueSorted, ?_, ?_, ?_, ?_, ?_,
    hi.joinTerm, ?_, ?_, hi.outTerm, ?_, ?_, hi.phaseFresh, hi.phaseInit⟩
  · intro id2 ts h
    simp only [status_upd] at h
    by_cases hid : id2 = id
    · exact hid ▸ h0.2.1
    · rw [if_neg hid] at h
      exact hi.statusBound id2 ts h
  · intro p hp
    have hne : p.1 ≠ id := by
      intro he
      exact h0.2.2 (by simp only [queueIds]; exact List.mem_map.mpr ⟨p, hp, he⟩)
    simp only [status_upd]
    rw [if_neg hne]
    exact hi.queueWaiting p hp
  · intro w2 id2 v2 h2
    rcases get?_set_eq_some h2 with ⟨_, hbb, _⟩ | ⟨hww, h3⟩
    · cases hbb
    · have h4 := hi.gotStatus w2 id2 v2 h3
      have hne : id2 ≠ id := hOtherNe w2 id2 (fun he => hww he.symm) ⟨v2, Or.inl h3⟩
      refine ⟨?_, h4.2.1, h4.2.2⟩
      simp only [status_upd]
      rw [if_neg hne]
      exact h4.1
  · intro w2 id2 v2 h2
    rcases get?_set_eq_some h2 with ⟨hww, hbb, _⟩ | ⟨hww, h3⟩
    · cases hbb
      refine ⟨Or.inl hEntry, h0.2.1, h0.2.2⟩
    · have h4 := hi.workingStatus w2 id2 v2 h3
      have hne : id2 ≠ id := hOtherNe w2 id2 (fun he => hww he.symm) ⟨v2, Or.inr (Or.inl h3)⟩
      refine ⟨?_, h4.2.1, h4.2.2⟩
      simp only [status_upd]
      rw [if_neg hne]
      exact h4.1
  · intro w2 id2 v2 h2
    rcases get?_set_eq_some h2 with ⟨_, hbb, _⟩ | ⟨hww, h3⟩
    · cases hbb
    · have h4 := hi.wroteStatus w2 id2 v2 h3
      have hne : id2 ≠ id := hOtherNe w2 id2 (fun he => hww he.symm) ⟨v2, Or.inr (Or.inr h3)⟩
      refine ⟨?_, h4.2.1, h4.2.2⟩
      simp only [status_upd]
      rw [if_neg hne]
      exact h4.1
  · intro w1 w2 id0 h1 h2
    rcases holdsIn_set_cases h1 with ⟨he1, _, v1, hx1⟩ | ⟨hne1, hold1⟩ <;>
      rcases holdsIn_set_cases h2 with ⟨he2, _, v2, hx2⟩ | ⟨hne2, hold2⟩
    · rw [he1, he2]
    · have hid0 : id0 = id := by
        rcases hx1 with h | h | h <;> cases h <;> rfl
      exact absurd (hOtherNe w2 id0 hne2 hold2 hid0) (fun hf => hf)
    · have hid0 : id0 = id := by
        rcases hx2 with h | h | h <;> cases h <;> rfl
      exact absurd (hOtherNe w1 id0 hne1 hold1 hid0) (fun hf => hf)
    · exact hi.holderUnique w1 w2 id0 hold1 hold2
  · intro id2 ts h hst
    simp only [status_upd] at h
    by_cases hid : id2 = id
    · subst hid
      exact ⟨w, holdsIn_set_self hlen ⟨v, Or.inr (Or.inl rfl)⟩⟩
    · rw [if_neg hid] at h
      rcases hi.workingOwned id2 ts h hst with ⟨w0, hw0⟩
      have hne0 : w0 ≠ w := by
        intro he
        have : holdsAt c w id2 := he ▸ hw0
        rcases this with ⟨v0, hh | hh | hh⟩ <;> rw [hw] at hh <;> cases hh <;> exact hid rfl
      exact ⟨w0, holdsIn_set_other hne0 hw0⟩
  · intro hcall hall
    have hmem : WorkerState.working id v ∈
        c.pool.m_workers.set w (WorkerState.working id v) :=
      List.get?_mem (get?_set_self hlen)
    cases hall _ hmem
  · intro hcall st hst
    rcases List.mem_or_eq_of_mem_set hst with h1 | h1
    · exact hi.outExit hcall st h1
    · rw [h1]
      intro he
      cases he
  · intro hI
    have hne := hi.initNonempty hI
    intro hE
    have := congrArg List.length hE
    simp only [List.length_set] at this
    exact hne (List.length_eq_zero.mp this)
  · intro h1 h2
    have h3 := hi.uninitEmpty h1 h2
    rw [h3] at hw
    cases hw

/-- Preservation of the invariant by a worker writing its task's result. -/
theorem inv_writeResult {c : Config} (w id v : Nat)
    (hw : c.pool.m_workers.get? w = some (WorkerState.working id v)) (hi : Inv c) :
    Inv ⟨{ c.pool with
             m_task_status :=
               status_upd c.pool.m_task_status id (fun e => { e with result := v }),
             m_workers := c.pool.m_workers.set w (WorkerState.wroteResult id v) },
      c.caller⟩ := by
  have hlen : w < c.pool.m_workers.length := by
    rcases List.get?_eq_some.mp hw with ⟨hl, _⟩
    exact hl
  have h0 := hi.workingStatus w id v hw
  have hold : holdsAt c w id := ⟨v, Or.inr (Or.inl hw)⟩
  have hOtherNe : ∀ w2 id2, w2 ≠ w → holdsIn c.pool.m_workers w2 id2 → id2 ≠ id := by
    intro w2 id2 hne h2 he
    exact hne (hi.holderUnique w2 w id (he ▸ h2) hold)
  have hEntry : status_upd c.pool.m_task_status id
      (fun e => { e with result := v }) id = some ⟨Status.Working, v⟩ ∨
      status_upd c.pool.m_task_status id
        (fun e => { e with result := v }) id = some ⟨Status.Waiting, v⟩ := by
    rcases h0.1 with hE | hE
    · left
      rw [status_upd_self, hE]
      rfl
    · right
      rw [status_upd_self, hE]
      rfl
  refine ⟨?_, hi.queueBound, ?_, hi.queueSorted, ?_, ?_, ?_, ?_, ?_,
    hi.joinTerm, ?_, ?_, hi.outTerm, ?_, ?_, hi.phaseFresh, hi.phaseInit⟩
  · intro id2 ts h
    simp only [status_upd] at h
    by_cases hid : id2 = id
    · exact hid ▸ h0.2.1
    · rw [if_neg hid] at h
      exact hi.statusBound id2 ts h
  · intro p hp
    have hne : p.1 ≠ id := by
      intro he
      exact h0.2.2 (by simp only [queueIds]; exact List.mem_map.mpr ⟨p, hp, he⟩)
    simp only [status_upd]
    rw [if_neg hne]
    exact hi.queueWaiting p hp
  · intro w2 id2 v2 h2
    rcases get?_set_eq_some h2 with ⟨_, hbb, _⟩ | ⟨hww, h3⟩
    · cases hbb
    · have h4 := hi.gotStatus w2 id2 v2 h3
      have hne : id2 ≠ id := hOtherNe w2 id2 (fun he => hww he.symm) ⟨v2, Or.inl h3⟩
      refine ⟨?_, h4.2.1, h4.2.2⟩
      simp only [status_upd]
      rw [if_neg hne]
      exact h4.1
  · intro w2 id2 v2 h2
    rcases get?_set_eq_some h2 with ⟨_, hbb, _⟩ | ⟨hww, h3⟩
    · cases hbb
    · have h4 := hi.workingStatus w2 id2 v2 h3
      have hne : id2 ≠ id := hOtherNe w2 id2 (fun he => hww he.symm) ⟨v2, Or.inr (Or.inl h3)⟩
      refine ⟨?_, h4.2.1, h4.2.2⟩
      simp only [status_upd]
      rw [if_neg hne]
      exact h4.1
  · intro w2 id2 v2 h2
    rcases get?_set_eq_some h2 with ⟨hww, hbb, _⟩ | ⟨hww, h3⟩
    · cases hbb
      exact ⟨hEntry, h0.2.1, h0.2.2⟩
    · have h4 := hi.wroteStatus w2 id2 v2 h3
      have hne : id2 ≠ id := hOtherNe w2 id2 (fun he => hww he.symm) ⟨v2, Or.inr (Or.inr h3)⟩
      refine ⟨?_, h4.2.1, h4.2.2⟩
      simp only [status_upd]
      rw [if_neg hne]
      exact h4.1
  · intro w1 w2 id0 h1 h2
    rcases holdsIn_set_cases h1 with ⟨he1, _, v1, hx1⟩ | ⟨hne1, hold1⟩ <;>
      rcases holdsIn_set_cases h2 with ⟨he2, _, v2, hx2⟩ | ⟨hne2, hold2⟩
    · rw [he1, he2]
    · have hid0 : id0 = id := by
        rcases hx1 with h | h | h <;> cases h <;> rfl
      exact absurd (hOtherNe w2 id0 hne2 hold2 hid0) (fun hf => hf)
    · have hid0 : id0 = id := by
        rcases hx2 with h | h | h <;> cases h <;> rfl
      exact absurd (hOtherNe w1 id0 hne1 hold1 hid0) (fun hf => hf)
    · exact hi.holderUnique w1 w2 id0 hold1 hold2
  · intro id2 ts h hst
    simp only [status_upd] at h
    by_cases hid : id2 = id
    · subst hid
      exact ⟨w, holdsIn_set_self hlen ⟨v, Or.inr (Or.inr rfl)⟩⟩
    · rw [if_neg hid] at h
      rcases hi.workingOwned id2 ts h hst with ⟨w0, hw0⟩
      have hne0 : w0 ≠ w := by
        intro he
        have : holdsAt c w id2 := he ▸ hw0
        rcases this with ⟨v0, hh | hh | hh⟩ <;> rw [hw] at hh <;> cases hh <;> exact hid rfl
      exact ⟨w0, holdsIn_set_other hne0 hw0⟩
  · intro hcall hall
    have hmem : WorkerState.wroteResult id v ∈
        c.pool.m_workers.set w (WorkerState.wroteResult id v) :=
      List.get?_mem (get?_set_self hlen)
    cases hall _ hmem
  · intro hcall st hst
    rcases List.mem_or_eq_of_mem_set hst with h1 | h1
    · exact hi.outExit hcall st h1
    · rw [h1]
      intro he
      cases he
  · intro hI
    have hne := hi.initNonempty hI
    intro hE
    have := congrArg List.length hE
    simp only [List.length_set] at this
    exact hne (List.length_eq_zero.mp this)
  · intro h1 h2
    have h3 := hi.uninitEmpty h1 h2
    rw [h3] at hw
    cases hw

/-- Preservation of the invariant by a worker marking its task Finished. -/
theorem inv_markFinished {c : Config} (w id v : Nat)
    (hw : c.pool.m_workers.get? w = some (WorkerState.wroteResult id v)) (hi : Inv c) :
    Inv ⟨{ c.pool with
             m_task_status :=
               status_upd c.pool.m_task_status id
                 (fun e => { e with status := Status.Finished }),
             m_workers := c.pool.m_workers.set w WorkerState.idle },
      c.caller⟩ := by
  have hlen : w < c.pool.m_workers.length := by
    rcases List.get?_eq_some.mp hw with ⟨hl, _⟩
    exact hl
  have h0 := hi.wroteStatus w id v hw
  have hold : holdsAt c w id := ⟨v, Or.inr (Or.inr hw)⟩
  have hOtherNe : ∀ w2 id2, w2 ≠ w → holdsIn c.pool.m_workers w2 id2 → id2 ≠ id := by
    intro w2 id2 hne h2 he
    exact hne (hi.holderUnique w2 w id (he ▸ h2) hold)
  have hEntry : status_upd c.pool.m_task_status id
      (fun e => { e with status := Status.Finished }) id = some ⟨Status.Finished, v⟩ := by
    rcases h0.1 with hE | hE <;> (rw [status_upd_self, hE]; rfl)
  refine ⟨?_, hi.queueBound, ?_, hi.queueSorted, ?_, ?_, ?_, ?_, ?_,
    hi.joinTerm, ?_, ?_, hi.outTerm, ?_, ?_, hi.phaseFresh, hi.phaseInit⟩
  · intro id2 ts h
    simp only [status_upd] at h
    by_cases hid : id2 = id
    · exact hid ▸ h0.2.1
    · rw [if_neg hid] at h
      exact hi.statusBound id2 ts h
  · intro p hp
    have hne : p.1 ≠ id := by
      intro he
      exact h0.2.2 (by simp only [queueIds]; exact List.mem_map.mpr ⟨p, hp, he⟩)
    simp only [status_upd]
    rw [if_neg hne]
    exact hi.queueWaiting p hp
  · intro w2 id2 v2 h2
    rcases get?_set_eq_some h2 with ⟨_, hbb, _⟩ | ⟨hww, h3⟩
    · cases hbb
    · have h4 := hi.gotStatus w2 id2 v2 h3
      have hne : id2 ≠ id := hOtherNe w2 id2 (fun he => hww he.symm) ⟨v2, Or.inl h3⟩
      refine ⟨?_, h4.2.1, h4.2.2⟩
      simp only [status_upd]
      rw [if_neg hne]
      exact h4.1
  · intro w2 id2 v2 h2
    rcases get?_set_eq_some h2 with ⟨_, hbb, _⟩ | ⟨hww, h3⟩
    · cases hbb
    · have h4 := hi.workingStatus w2 id2 v2 h3
      have hne : id2 ≠ id := hOtherNe w2 id2 (fun he => hww he.symm) ⟨v2, Or.inr (Or.inl h3)⟩
      refine ⟨?_, h4.2.1, h4.2.2⟩
      simp only [status_upd]
      rw [if_neg hne]
      exact h4.1
  · intro w2 id2 v2 h2
    rcases get?_set_eq_some h2 with ⟨_, hbb, _⟩ | ⟨hww, h3⟩
    · cases hbb
    · have h4 := hi.wroteStatus w2 id2 v2 h3
      have hne : id2 ≠ id := hOtherNe w2 id2 (fun he => hww he.symm) ⟨v2, Or.inr (Or.inr h3)⟩
      refine ⟨?_, h4.2.1, h4.2.2⟩
      simp only [status_upd]
      rw [if_neg hne]
      exact h4.1
  · intro w1 w2 id0 h1 h2
    rcases holdsIn_set_cases h1 with ⟨_, _, v1, hx1⟩ | ⟨hne1, hold1⟩
    · rcases hx1 with h | h | h <;> cases h
    · rcases holdsIn_set_cases h2 with ⟨_, _, v2, hx2⟩ | ⟨hne2, hold2⟩
      · rcases hx2 with h | h | h <;> cases h
      · exact hi.holderUnique w1 w2 id0 hold1 hold2
  · intro id2 ts h hst
    simp only [status_upd] at h
    by_cases hid : id2 = id
    · rw [if_pos hid] at h
      rcases h0.1 with hE | hE <;> rw [hE] at h <;> (cases h; cases hst)
    · rw [if_neg hid] at h
      rcases hi.workingOwned id2 ts h hst with ⟨w0, hw0⟩
      have hne0 : w0 ≠ w := by
        intro he
        have : holdsAt c w id2 := he ▸ hw0
        rcases this with ⟨v0, hh | hh | hh⟩ <;> rw [hw] at hh <;> cases hh <;> exact hid rfl
      exact ⟨w0, holdsIn_set_other hne0 hw0⟩
  · intro hcall hall
    have hmem : WorkerState.idle ∈ c.pool.m_workers.set w WorkerState.idle :=
      List.get?_mem (get?_set_self hlen)
    cases hall _ hmem
  · intro hcall st hst
    rcases List.mem_or_eq_of_mem_set hst with h1 | h1
    · exact hi.outExit hcall st h1
    · rw [h1]
      intro he
      cases he
  · intro hI
    have hne := hi.initNonempty hI
    intro hE
    have := congrArg List.length hE
    simp only [List.length_set] at this
    exact hne (List.length_eq_zero.mp this)
  · intro h1 h2
    have h3 := hi.uninitEmpty h1 h2
    rw [h3] at hw
    cases hw

/-- Preservation of the invariant by the locked working check of a successful
submission (lines 135-140): only the caller's phase changes. -/
theorem inv_submitBegin {c : Config} (v : Nat)
    (hc : c.caller = CallerPhase.running) (hw : working_unsafe c.pool = true)
    (hi : Inv c) : Inv ⟨c.pool, CallerPhase.submitPassed v⟩ := by
  have hnj : c.caller ≠ CallerPhase.joining := by
    rw [hc]
    intro h
    cases h
  have hwI : c.pool.m_initialized = true := by
    simp [ working_unsafe] at hw
    exact hw.1
  refine ⟨hi.statusBound, hi.queueBound, ?_, hi.queueSorted, ?_, hi.workingStatus,
    hi.wroteStatus, hi.holderUnique, hi.workingOwned, ?_, ?_, ?_, ?_, hi.initNonempty,
    ?_, ?_, ?_⟩
  · intro p hp
    rcases hi.queueWaiting p hp with h1 | ⟨h1, v2, h2⟩
    · exact Or.inl h1
    · rw [hc] at h2
      cases h2
  · intro w2 id2 v2 h2
    have h0 := hi.gotStatus w2 id2 v2 h2
    refine ⟨?_, h0.2.1, h0.2.2⟩
    rcases h0.1 with h1 | ⟨h1, v3, h3⟩
    · exact Or.inl h1
    · rw [hc] at h3
      cases h3
  · intro h
    cases h
  · intro h
    cases h
  · intro _ st hst
    exact hi.outExit hnj st hst
  · intro _
    exact hi.outTerm hnj
  · intro h
    cases h
  · intro j v2 h
    cases h
  · intro _ _
    exact hwI

/-- Preservation of the invariant by the unlocked emplace of a successful
submission (line 143): the task enters the queue under the fresh id, whose status
insertion is now pending, so the fresh id has no status entry yet. -/
theorem inv_submitOk {c : Config} (v : Nat)
    (hc : c.caller = CallerPhase.submitPassed v) (hi : Inv c) :
    Inv ⟨{ c.pool with m_tasks := (c.pool.m_tasks.emplace v).1 },
      CallerPhase.submitInserting c.pool.m_tasks.next_id v⟩ := by
  have hfresh : c.pool.m_task_status c.pool.m_tasks.next_id = none := lookup_ge_none hi
  have hnj : c.caller ≠ CallerPhase.joining := by
    rw [hc]
    intro h
    cases h
  have hnr : c.caller ≠ CallerPhase.running := by
    rw [hc]
    intro h
    cases h
  refine ⟨?_, ?_, ?_, ?_, ?_, ?_, ?_, hi.holderUnique, ?_, ?_, ?_, ?_, ?_,
    hi.initNonempty, ?_, ?_, ?_⟩
  · intro id ts h
    show id < c.pool.m_tasks.next_id + 1
    exact Nat.lt_succ_of_lt (hi.statusBound id ts h)
  · intro p hp
    have hp2 : p ∈ c.pool.m_tasks.items ++ [(c.pool.m_tasks.next_id, v)] := hp
    show p.1 < c.pool.m_tasks.next_id + 1
    rcases List.mem_append.mp hp2 with h1 | h1
    · exact Nat.lt_succ_of_lt (hi.queueBound p h1)
    · rcases List.mem_singleton.mp h1 with rfl
      exact Nat.lt_succ_self _
  · intro p hp
    have hp2 : p ∈ c.pool.m_tasks.items ++ [(c.pool.m_tasks.next_id, v)] := hp
    rcases List.mem_append.mp hp2 with h1 | h1
    · rcases hi.queueWaiting p h1 with h2 | ⟨h2, v2, h3⟩
      · exact Or.inl h2
      · rw [hc] at h3
        cases h3
    · rcases List.mem_singleton.mp h1 with rfl
      exact Or.inr ⟨hfresh, v, rfl⟩
  · show List.Pairwise (fun a b => a.1 < b.1)
      (c.pool.m_tasks.items ++ [(c.pool.m_tasks.next_id, v)])
    refine List.pairwise_append.mpr ⟨hi.queueSorted, List.pairwise_singleton _ _, ?_⟩
    intro a ha b hb
    rcases List.mem_singleton.mp hb with rfl
    exact hi.queueBound a ha
  · intro w2 id2 v2 h2
    have h0 := hi.gotStatus w2 id2 v2 h2
    have hne : id2 ≠ c.pool.m_tasks.next_id := Nat.ne_of_lt h0.2.1
    refine ⟨?_, Nat.lt_succ_of_lt h0.2.1, ?_⟩
    · rcases h0.1 with h1 | ⟨h1, v3, h3⟩
      · exact Or.inl h1
      · rw [hc] at h3
        cases h3
    · show id2 ∉ queueIds { c.pool with m_tasks := (c.pool.m_tasks.emplace v).1 }
      simp only [queueIds, task_queue.emplace, List.map_append, List.map_cons,
        List.map_nil, List.mem_append, List.mem_singleton]
      rintro (h1 | h1)
      · exact h0.2.2 (by simpa [queueIds] using h1)
      · exact hne h1
  · intro w2 id2 v2 h2
    have h0 := hi.workingStatus w2 id2 v2 h2
    have hne : id2 ≠ c.pool.m_tasks.next_id := Nat.ne_of_lt h0.2.1
    refine ⟨h0.1, Nat.lt_succ_of_lt h0.2.1, ?_⟩
    show id2 ∉ queueIds { c.pool with m_tasks := (c.pool.m_tasks.emplace v).1 }
    simp only [queueIds, task_queue.emplace, List.map_append, List.map_cons,
      List.map_nil, List.mem_append, List.mem_singleton]
    rintro (h1 | h1)
    · exact h0.2.2 (by simpa [queueIds] using h1)
    · exact hne h1
  · intro w2 id2 v2 h2
    have h0 := hi.wroteStatus w2 id2 v2 h2
    have hne : id2 ≠ c.pool.m_tasks.next_id := Nat.ne_of_lt h0.2.1
    refine ⟨h0.1, Nat.lt_succ_of_lt h0.2.1, ?_⟩
    show id2 ∉ queueIds { c.pool with m_tasks := (c.pool.m_tasks.emplace v).1 }
    simp only [queueIds, task_queue.emplace, List.map_append, List.map_cons,
      List.map_nil, List.mem_append, List.mem_singleton]
    rintro (h1 | h1)
    · exact h0.2.2 (by simpa [queueIds] using h1)
    · exact hne h1
  · intro id ts h hst
    rcases hi.workingOwned id ts h hst with ⟨w, hw2⟩
    exact ⟨w, hw2⟩
  · intro h
    cases h
  · intro h
    cases h
  · intro _ st hst
    exact hi.outExit hnj st hst
  · intro _
    exact hi.outTerm hnj
  · intro h
    cases h
  · intro j v2 h
    injection h with e1 e2
    subst e1
    rfl
  · intro _ _
    exact hi.phaseInit hnr hnj

/-- Resolving a pending insertion on an id whose entry is still the default
Waiting entry or absent yields the default Waiting entry. -/
theorem insert_resolves {m : Nat → Option TaskStatus} {id : Nat}
    (h : m id = some ⟨Status.Waiting, 0⟩ ∨ m id = none) :
    status_upd m id (fun e => { e with status := Status.Waiting }) id =
      some ⟨Status.Waiting, 0⟩ := by
  rcases h with h | h <;> (rw [status_upd_self, h]; rfl)

/-- Preservation of the invariant by the unlocked status insertion of a successful
submission (line 144): the pending id's entry is (re)created with status Waiting,
keeping whatever result a racing worker may already have stored there. -/
theorem inv_submitInsert {c : Config} (id v : Nat)
    (hc : c.caller = CallerPhase.submitInserting id v) (hi : Inv c) :
    Inv ⟨{ c.pool with
             m_task_status :=
               status_upd c.pool.m_task_status id
                 (fun e => { e with status := Status.Waiting }) },
      CallerPhase.running⟩ := by
  have hnj : c.caller ≠ CallerPhase.joining := by
    rw [hc]
    intro h
    cases h
  have hnr : c.caller ≠ CallerPhase.running := by
    rw [hc]
    intro h
    cases h
  have hIb : id < c.pool.m_tasks.next_id := by
    have := hi.phaseFresh id v hc
    omega
  have hInit : c.pool.m_initialized = true := hi.phaseInit hnr hnj
  have hOnly : ∀ j v2, c.caller = CallerPhase.submitInserting j v2 → j = id := by
    intro j v2 h
    rw [hc] at h
    injection h with e1 e2
    exact e1.symm
  refine ⟨?_, hi.queueBound, ?_, hi.queueSorted, ?_, ?_, ?_, hi.holderUnique, ?_,
    ?_, ?_, ?_, ?_, hi.initNonempty, ?_, ?_, ?_⟩
  · intro id2 ts h
    simp only [status_upd] at h
    by_cases hid : id2 = id
    · subst hid
      exact hIb
    · rw [if_neg hid] at h
      exact hi.statusBound id2 ts h
  · intro p hp
    refine Or.inl ?_
    show status_upd c.pool.m_task_status id
      (fun e => { e with status := Status.Waiting }) p.1 = some ⟨Status.Waiting, 0⟩
    rcases hi.queueWaiting p hp with h1 | ⟨h1, v2, h2⟩
    · by_cases hid : p.1 = id
      · rw [hid]
        rw [hid] at h1
        exact insert_resolves (Or.inl h1)
      · rw [status_upd_ne _ _ hid]
        exact h1
    · have hpid : p.1 = id := hOnly p.1 v2 h2
      rw [hpid]
      rw [hpid] at h1
      exact insert_resolves (Or.inr h1)
  · intro w2 id2 v2 h2
    have h0 := hi.gotStatus w2 id2 v2 h2
    refine ⟨Or.inl ?_, h0.2.1, h0.2.2⟩
    show status_upd c.pool.m_task_status id
      (fun e => { e with status := Status.Waiting }) id2 = some ⟨Status.Waiting, 0⟩
    by_cases hid : id2 = id
    · subst hid
      refine insert_resolves ?_
      rcases h0.1 with h1 | ⟨h1, _⟩
      · exact Or.inl h1
      · exact Or.inr h1
    · rw [status_upd_ne _ _ hid]
      rcases h0.1 with h1 | ⟨h1, v3, h3⟩
      · exact h1
      · exact absurd (hOnly id2 v3 h3) hid
  · intro w2 id2 v2 h2
    have h0 := hi.workingStatus w2 id2 v2 h2
    refine ⟨?_, h0.2.1, h0.2.2⟩
    by_cases hid : id2 = id
    · subst hid
      refine Or.inr ?_
      show status_upd c.pool.m_task_status id2
        (fun e => { e with status := Status.Waiting }) id2 = some ⟨Status.Waiting, 0⟩
      rcases h0.1 with h1 | h1 <;> (rw [status_upd_self, h1]; rfl)
    · rcases h0.1 with h1 | h1
      · refine Or.inl ?_
        show status_upd c.pool.m_task_status id
          (fun e => { e with status := Status.Waiting }) id2 = some ⟨Status.Working, 0⟩
        rw [status_upd_ne _ _ hid]
        exact h1
      · refine Or.inr ?_
        show status_upd c.pool.m_task_status id
          (fun e => { e with status := Status.Waiting }) id2 = some ⟨Status.Waiting, 0⟩
        rw [status_upd_ne _ _ hid]
        exact h1
  · intro w2 id2 v2 h2
    have h0 := hi.wroteStatus w2 id2 v2 h2
    refine ⟨?_, h0.2.1, h0.2.2⟩
    by_cases hid : id2 = id
    · subst hid
      refine Or.inr ?_
      show status_upd c.pool.m_task_status id2
        (fun e => { e with status := Status.Waiting }) id2 = some ⟨Status.Waiting, v2⟩
      rcases h0.1 with h1 | h1 <;> (rw [status_upd_self, h1]; rfl)
    · rcases h0.1 with h1 | h1
      · refine Or.inl ?_
        show status_upd c.pool.m_task_status id
          (fun e => { e with status := Status.Waiting }) id2 = some ⟨Status.Working, v2⟩
        rw [status_upd_ne _ _ hid]
        exact h1
      · refine Or.inr ?_
        show status_upd c.pool.m_task_status id
          (fun e => { e with status := Status.Waiting }) id2 = some ⟨Status.Waiting, v2⟩
        rw [status_upd_ne _ _ hid]
        exact h1
  · intro id2 ts h hst
    simp only [status_upd] at h
    by_cases hid : id2 = id
    · rw [if_pos hid] at h
      cases h
      cases hst
    · rw [if_neg hid] at h
      exact hi.workingOwned id2 ts h hst
  · intro h
    cases h
  · intro h
    cases h
  · intro _ st hst
    exact hi.outExit hnj st hst
  · intro _
    exact hi.outTerm hnj
  · intro _ h2
    have h3 : c.pool.m_initialized = false := h2
    rw [hInit] at h3
    cases h3
  · intro j v2 h
    cases h
  · intro h _
    exact absurd rfl h

/-- An empty worker list owns nothing. -/
theorem holdsIn_nil {w id : Nat} : ¬ holdsIn [] w id := by
  rintro ⟨v, h | h | h⟩ <;> rw [List.get?_nil] at h <;> cases h

/-- An all-idle worker list owns nothing. -/
theorem holdsIn_all_idle {l : List WorkerState} {w id : Nat}
    (hall : ∀ st ∈ l, st = WorkerState.idle) : ¬ holdsIn l w id := by
  rintro ⟨v, h | h | h⟩ <;> (have hx := hall _ (List.get?_mem h); cases hx)

/-- Preservation of the invariant by the locked block of a graceful terminate on a
working pool. -/
theorem inv_graceBegin {c : Config}
    (hc : c.caller = CallerPhase.running) (hw : working_unsafe c.pool = true)
    (hi : Inv c) :
    Inv ⟨{ c.pool with m_terminated := true }, CallerPhase.joining⟩ := by
  have hnj : c.caller ≠ CallerPhase.joining := by
    rw [hc]
    intro h
    cases h
  have hwI : c.pool.m_initialized = true := by
    simp [ working_unsafe] at hw
    exact hw.1
  refine ⟨hi.statusBound, hi.queueBound, ?_, hi.queueSorted, ?_, hi.workingStatus,
    hi.wroteStatus, hi.holderUnique, hi.workingOwned, fun _ => rfl, ?_, ?_, ?_,
    hi.initNonempty, ?_, ?_, ?_⟩
  · intro p hp
    rcases hi.queueWaiting p hp with h1 | ⟨h1, v2, h2⟩
    · exact Or.inl h1
    · rw [hc] at h2
      cases h2
  · intro w2 id2 v2 h2
    have h0 := hi.gotStatus w2 id2 v2 h2
    refine ⟨?_, h0.2.1, h0.2.2⟩
    rcases h0.1 with h1 | ⟨h1, v3, h3⟩
    · exact Or.inl h1
    · rw [hc] at h3
      cases h3
  · intro _ hall
    rcases List.exists_mem_of_ne_nil _ (hi.initNonempty hwI) with ⟨st, hst⟩
    have h1 := hall st hst
    have h2 := hi.outExit hnj st hst
    exact absurd h1 h2
  · intro h
    exact absurd rfl h
  · intro h
    exact absurd rfl h
  · intro h
    cases h
  · intro j v2 h
    cases h
  · intro _ h2
    exact absurd rfl h2

/-- Preservation of the invariant by the not-working branch of a graceful
terminate. -/
theorem inv_graceNoop {c : Config}
    (hc : c.caller = CallerPhase.running) (hw : working_unsafe c.pool = false)
    (hi : Inv c) :
    Inv ⟨{ c.pool with m_workers := [], m_terminated := false, m_initialized := false },
      CallerPhase.running⟩ := by
  have hnj : c.caller ≠ CallerPhase.joining := by
    rw [hc]
    intro h
    cases h
  have hT : c.pool.m_terminated = false := hi.outTerm hnj
  have hI : c.pool.m_initialized = false := by
    simp [ working_unsafe, hT] at hw
    exact hw
  have hWk : c.pool.m_workers = [] := hi.uninitEmpty hc hI
  refine ⟨hi.statusBound, hi.queueBound, ?_, hi.queueSorted, ?_, ?_, ?_, ?_, ?_,
    ?_, ?_, ?_, fun _ => rfl, ?_, fun _ _ => rfl, ?_, ?_⟩
  · intro p hp
    rcases hi.queueWaiting p hp with h1 | ⟨h1, v2, h2⟩
    · exact Or.inl h1
    · rw [hc] at h2
      cases h2
  · intro w2 id2 v2 h2
    rw [List.get?_nil] at h2
    cases h2
  · intro w2 id2 v2 h2
    rw [List.get?_nil] at h2
    cases h2
  · intro w2 id2 v2 h2
    rw [List.get?_nil] at h2
    cases h2
  · intro w1 w2 id0 h1 h2
    exact absurd h1 holdsIn_nil
  · intro id2 ts h2 hst
    rcases hi.workingOwned id2 ts h2 hst with ⟨w0, hw0⟩
    rw [show holdsAt c w0 id2 = holdsIn c.pool.m_workers w0 id2 from rfl, hWk] at hw0
    exact absurd hw0 holdsIn_nil
  · intro h
    cases h
  · intro h
    cases h
  · intro _ st hst
    cases hst
  · intro h
    cases h
  · intro j v2 h
    cases h
  · intro h _
    exact absurd rfl h

/-- Preservation of the invariant by the locked block of an immediate terminate on
a working pool: the queue is cleared and the terminated flag set. -/
theorem inv_nowBegin {c : Config}
    (hc : c.caller = CallerPhase.running) (hw : working_unsafe c.pool = true)
    (hi : Inv c) :
    Inv ⟨{ c.pool with m_tasks := c.pool.m_tasks.clear, m_terminated := true },
      CallerPhase.joining⟩ := by
  refine ⟨hi.statusBound, ?_, ?_, ?_, ?_, ?_, ?_, hi.holderUnique,
    hi.workingOwned, fun _ => rfl, ?_, ?_, ?_, hi.initNonempty, ?_, ?_, ?_⟩
  · intro p hp
    cases hp
  · intro p hp
    cases hp
  · exact List.Pairwise.nil
  · intro w2 id2 v2 h2
    have h0 := hi.gotStatus w2 id2 v2 h2
    refine ⟨?_, h0.2.1, ?_⟩
    · rcases h0.1 with h1 | ⟨h1, v3, h3⟩
      · exact Or.inl h1
      · rw [hc] at h3
        cases h3
    · intro hmem
      simp [queueIds, task_queue.clear] at hmem
  · intro w2 id2 v2 h2
    have h0 := hi.workingStatus w2 id2 v2 h2
    refine ⟨h0.1, h0.2.1, ?_⟩
    intro hmem
    simp [queueIds, task_queue.clear] at hmem
  · intro w2 id2 v2 h2
    have h0 := hi.wroteStatus w2 id2 v2 h2
    refine ⟨h0.1, h0.2.1, ?_⟩
    intro hmem
    simp [queueIds, task_queue.clear] at hmem
  · intro _ _
    rfl
  · intro h
    exact absurd rfl h
  · intro h
    exact absurd rfl h
  · intro h
    cases h
  · intro j v2 h
    cases h
  · intro _ h2
    exact absurd rfl h2

/-- Preservation of the invariant by the not-working branch of an immediate
terminate (the queue is still cleared first). -/
theorem inv_nowNoop {c : Config}
    (hc : c.caller = CallerPhase.running) (hw : working_unsafe c.pool = false)
    (hi : Inv c) :
    Inv ⟨{ c.pool with
             m_tasks := c.pool.m_tasks.clear,
             m_workers := [],
             m_terminated := false,
             m_initialized := false },
      CallerPhase.running⟩ := by
  have hnj : c.caller ≠ CallerPhase.joining := by
    rw [hc]
    intro h
    cases h
  have hT : c.pool.m_terminated = false := hi.outTerm hnj
  have hI : c.pool.m_initialized = false := by
    simp [ working_unsafe, hT] at hw
    exact hw
  have hWk : c.pool.m_workers = [] := hi.uninitEmpty hc hI
  refine ⟨hi.statusBound, ?_, ?_, ?_, ?_, ?_, ?_, ?_, ?_, ?_, ?_, ?_,
    fun _ => rfl, ?_, fun _ _ => rfl, ?_, ?_⟩
  · intro p hp
    cases hp
  · intro p hp
    cases hp
  · exact List.Pairwise.nil
  · intro w2 id2 v2 h2
    rw [List.get?_nil] at h2
    cases h2
  · intro w2 id2 v2 h2
    rw [List.get?_nil] at h2
    cases h2
  · intro w2 id2 v2 h2
    rw [List.get?_nil] at h2
    cases h2
  · intro w1 w2 id0 h1 h2
    exact absurd h1 holdsIn_nil
  · intro id2 ts h2 hst
    rcases hi.workingOwned id2 ts h2 hst with ⟨w0, hw0⟩
    rw [show holdsAt c w0 id2 = holdsIn c.pool.m_workers w0 id2 from rfl, hWk] at hw0
    exact absurd hw0 holdsIn_nil
  · intro h
    cases h
  · intro h
    cases h
  · intro _ st hst
    cases hst
  · intro h
    cases h
  · intro j v2 h
    cases h
  · intro h _
    exact absurd rfl h

/-- Preservation of the invariant by the completion of a terminate call: all
workers have exited, they are joined and the bookkeeping reset. -/
theorem inv_terminateEnd {c : Config}
    (hc : c.caller = CallerPhase.joining)
    (hall : ∀ st ∈ c.pool.m_workers, st = WorkerState.exited) (hi : Inv c) :
    Inv ⟨{ c.pool with m_workers := [], m_terminated := false, m_initialized := false },
      CallerPhase.running⟩ := by
  refine ⟨hi.statusBound, hi.queueBound, ?_, hi.queueSorted,
    ?_, ?_, ?_, ?_, ?_, ?_, ?_, ?_, fun _ => rfl, ?_, fun _ _ => rfl, ?_, ?_⟩
  · intro p hp
    rcases hi.queueWaiting p hp with h1 | ⟨h1, v2, h2⟩
    · exact Or.inl h1
    · rw [hc] at h2
      cases h2
  · intro w2 id2 v2 h2
    rw [List.get?_nil] at h2
    cases h2
  · intro w2 id2 v2 h2
    rw [List.get?_nil] at h2
    cases h2
  · intro w2 id2 v2 h2
    rw [List.get?_nil] at h2
    cases h2
  · intro w1 w2 id0 h1 h2
    exact absurd h1 holdsIn_nil
  · intro id2 ts h2 hst
    rcases hi.workingOwned id2 ts h2 hst with ⟨w0, hw0⟩
    rcases hw0 with ⟨v0, h0 | h0 | h0⟩ <;>
      (have hx := hall _ (List.get?_mem h0); cases hx)
  · intro h
    cases h
  · intro h
    cases h
  · intro _ st hst
    cases hst
  · intro h
    cases h
  · intro j v2 h
    cases h
  · intro h _
    exact absurd rfl h

/-- Preservation of the invariant by a call of `initialize`. -/
theorem inv_initStep {c : Config} (n : Nat) (d : Bool)
    (hc : c.caller = CallerPhase.running) (hi : Inv c) :
    Inv ⟨initializePool c.pool n d, c.caller⟩ := by
  by_cases hcond : (c.pool.m_initialized || c.pool.m_terminated) = true
  · have hpool : initializePool c.pool n d = c.pool := by
      simp [initializePool, hcond]
    rw [hpool]
    exact hi
  · have hI : c.pool.m_initialized = false := by
      simp at hcond
      exact hcond.1
    have hT : c.pool.m_terminated = false := by
      simp at hcond
      exact hcond.2
    have hWk : c.pool.m_workers = [] := hi.uninitEmpty hc hI
    have hpool : initializePool c.pool n d =
        { c.pool with
          m_workers := List.replicate n WorkerState.idle,
          m_initialized := !(List.replicate n WorkerState.idle).isEmpty } := by
      simp [initializePool, hI, hT, hWk]
    rw [hpool]
    have hallidle : ∀ st ∈ List.replicate n WorkerState.idle, st = WorkerState.idle :=
      fun st hst => List.eq_of_mem_replicate hst
    refine ⟨hi.statusBound, hi.queueBound, ?_, hi.queueSorted,
      ?_, ?_, ?_, ?_, ?_, ?_, ?_, ?_, fun _ => hT, ?_, ?_, ?_, ?_⟩
    · intro p hp
      rcases hi.queueWaiting p hp with h1 | ⟨h1, v2, h2⟩
      · exact Or.inl h1
      · rw [hc] at h2
        cases h2
    · intro w2 id2 v2 h2
      have := hallidle _ (List.get?_mem h2)
      cases this
    · intro w2 id2 v2 h2
      have := hallidle _ (List.get?_mem h2)
      cases this
    · intro w2 id2 v2 h2
      have := hallidle _ (List.get?_mem h2)
      cases this
    · intro w1 w2 id0 h1 h2
      exact absurd h1 (holdsIn_all_idle hallidle)
    · intro id2 ts h2 hst
      rcases hi.workingOwned id2 ts h2 hst with ⟨w0, hw0⟩
      rw [show holdsAt c w0 id2 = holdsIn c.pool.m_workers w0 id2 from rfl, hWk] at hw0
      exact absurd hw0 holdsIn_nil
    · intro h
      rw [hc] at h
      cases h
    · intro h
      rw [hc] at h
      cases h
    · intro _ st hst
      have := hallidle _ hst
      rw [this]
      intro he
      cases he
    · intro hNE hE
      have hNE2 : (!(List.replicate n WorkerState.idle).isEmpty) = true := hNE
      have hE2 : List.replicate n WorkerState.idle = ([] : List WorkerState) := hE
      rw [hE2] at hNE2
      simp at hNE2
    · intro _ hIf
      have hIf2 : (!(List.replicate n WorkerState.idle).isEmpty) = false := hIf
      have hIf3 : (List.replicate n WorkerState.idle).isEmpty = true := by
        simpa using hIf2
      show List.replicate n WorkerState.idle = ([] : List WorkerState)
      exact List.isEmpty_iff.mp hIf3
    · intro j v2 h
      rw [hc] at h
      cases h
    · intro h _
      exact absurd hc h

/-- Every step preserves the invariant. -/
theorem inv_step {c c' : Config} {l : Label} (h : Step c l c') (hi : Inv c) : Inv c' := by
  cases h with
  | submitBegin v hc hw => exact inv_submitBegin v hc hw hi
  | submitOk v hc => exact inv_submitOk v hc hi
  | submitInsert id v hc => exact inv_submitInsert id v hc hi
  | submitRejected v hc hw => exact hi
  | dequeue w id v rest hw hq => exact inv_dequeue w id v rest hw hq hi
  | workerExit w hw hq ht => exact inv_workerExit w hw hq ht hi
  | markWorking w id v hw => exact inv_markWorking w id v hw hi
  | writeResult w id v hw => exact inv_writeResult w id v hw hi
  | markFinished w id v hw => exact inv_markFinished w id v hw hi
  | graceBegin hc hw => exact inv_graceBegin hc hw hi
  | graceNoop hc hw => exact inv_graceNoop hc hw hi
  | nowBegin hc hw => exact inv_nowBegin hc hw hi
  | nowNoop hc hw => exact inv_nowNoop hc hw hi
  | terminateEnd hc hall => exact inv_terminateEnd hc hall hi
  | initStep n d hc => exact inv_initStep n d hc hi

/-- The invariant holds in the initial configuration. -/
theorem inv_init : Inv initConfig := by
  refine ⟨?_, ?_, ?_, ?_, ?_, ?_, ?_, ?_, ?_, ?_, ?_, ?_, ?_, ?_, ?_, ?_, ?_⟩
  · intro id ts h
    cases h
  · intro p hp
    cases hp
  · intro p hp
    cases hp
  · exact List.Pairwise.nil
  · intro w id v h
    simp [initConfig] at h
  · intro w id v h
    simp [initConfig] at h
  · intro w id v h
    simp [initConfig] at h
  · intro w1 w2 id0 h1 h2
    exact absurd h1 holdsIn_nil
  · intro id ts h hst
    cases h
  · intro h
    cases h
  · intro h hall
    cases h
  · intro _ st hst
    cases hst
  · intro _
    rfl
  · intro h
    cases h
  · intro _ _
    rfl
  · intro j v h
    cases h
  · intro h _
    exact absurd rfl h

/-- The invariant holds along every trace from the initial configuration. -/
theorem inv_steps {c0 c : Config} {tr : List Label} (h : Steps c0 tr c) (hi : Inv c0) :
    Inv c := by
  induction h with
  | refl => exact hi
  | cons hstep _ ih => exact ih (inv_step hstep hi)

/-- `initialize` never changes the status table. -/
theorem initializePool_m_task_status (s : PoolState) (n : Nat) (d : Bool) :
    (initializePool s n d).m_task_status = s.m_task_status := by
  unfold initializePool
  split <;> rfl

/-- A status entry survives an update aimed at any id. -/
theorem status_upd_persists {m : Nat → Option TaskStatus} {id0 id : Nat}
    {f : TaskStatus → TaskStatus} {ts : TaskStatus} (he : m id = some ts) :
    ∃ ts', status_upd m id0 f id = some ts' := by
  simp only [status_upd]
  by_cases hid : id = id0
  · rw [if_pos hid]
    exact ⟨_, rfl⟩
  · rw [if_neg hid]
    exact ⟨ts, he⟩

/-- Status entries are never deleted by any step. -/
theorem entry_persists_step {c c' : Config} {l : Label} (h : Step c l c') {id : Nat}
    {ts : TaskStatus} (he : c.pool.m_task_status id = some ts) :
    ∃ ts', c'.pool.m_task_status id = some ts' := by
  cases h with
  | submitInsert id0 v hc =>
    show ∃ ts', status_upd c.pool.m_task_status id0
      (fun e => { e with status := Status.Waiting }) id = some ts'
    exact status_upd_persists he
  | markWorking w id0 v hw =>
    show ∃ ts', status_upd c.pool.m_task_status id0
      (fun e => { e with status := Status.Working }) id = some ts'
    exact status_upd_persists he
  | writeResult w id0 v hw =>
    show ∃ ts', status_upd c.pool.m_task_status id0
      (fun e => { e with result := v }) id = some ts'
    exact status_upd_persists he
  | markFinished w id0 v hw =>
    show ∃ ts', status_upd c.pool.m_task_status id0
      (fun e => { e with status := Status.Finished }) id = some ts'
    exact status_upd_persists he
  | initStep n d hc =>
    refine ⟨ts, ?_⟩
    show (initializePool c.pool n d).m_task_status id = some ts
    rw [initializePool_m_task_status]
    exact he
  | _ => exact ⟨ts, he⟩

/-- Status entries are never deleted along any trace. -/
theorem entry_persists {c c2 : Config} {tr : List Label} (h : Steps c tr c2) {id : Nat}
    {ts : TaskStatus} (he : c.pool.m_task_status id = some ts) :
    ∃ ts', c2.pool.m_task_status id = some ts' := by
  induction h generalizing ts with
  | refl => exact ⟨ts, he⟩
  | cons hstep _ ih =>
    rcases entry_persists_step hstep he with ⟨ts1, h1⟩
    exact ih h1

/-- Preservation of `willFinish` by every step taken while the caller is blocked
joining: the caller cannot submit then, so no pending insertion can regress a
status entry, workers keep their tasks until they mark them Finished, and queued
items stay queued until a worker pops them. -/
theorem wf_step {c c' : Config} {l : Label} (h : Step c l c') (hi : Inv c)
    (hj : c.caller = CallerPhase.joining) {id : Nat} (hwf : willFinish c id) :
    willFinish c' id := by
  cases h with
  | submitBegin v hc hw =>
    rw [hj] at hc
    cases hc
  | submitOk v hc =>
    rw [hj] at hc
    cases hc
  | submitInsert id0 v hc =>
    rw [hj] at hc
    cases hc
  | submitRejected v hc hw =>
    rw [hj] at hc
    cases hc
  | graceBegin hc hw =>
    rw [hj] at hc
    cases hc
  | graceNoop hc hw =>
    rw [hj] at hc
    cases hc
  | nowBegin hc hw =>
    rw [hj] at hc
    cases hc
  | nowNoop hc hw =>
    rw [hj] at hc
    cases hc
  | initStep n d hc =>
    rw [hj] at hc
    cases hc
  | dequeue w id0 v rest hw hq =>
    have hlen : w < c.pool.m_workers.length := by
      rcases List.get?_eq_some.mp hw with ⟨hl, _⟩
      exact hl
    rcases hwf with ⟨r, hfin⟩ | ⟨w2, hold⟩ | hq2
    · exact Or.inl ⟨r, hfin⟩
    · have hne : w2 ≠ w := by
        intro he
        exact idle_not_holder hw (he ▸ hold)
      exact Or.inr (Or.inl ⟨w2, holdsIn_set_other hne hold⟩)
    · rw [queueIds, hq] at hq2
      simp only [List.map_cons, List.mem_cons] at hq2
      rcases hq2 with h3 | h3
      · refine Or.inr (Or.inl ⟨w, ?_⟩)
        rw [h3]
        exact holdsIn_set_self hlen ⟨v, Or.inl rfl⟩
      · exact Or.inr (Or.inr h3)
  | workerExit w hw hq ht =>
    rcases hwf with ⟨r, hfin⟩ | ⟨w2, hold⟩ | hq2
    · exact Or.inl ⟨r, hfin⟩
    · have hne : w2 ≠ w := by
        intro he
        exact idle_not_holder hw (he ▸ hold)
      exact Or.inr (Or.inl ⟨w2, holdsIn_set_other hne hold⟩)
    · exact Or.inr (Or.inr hq2)
  | markWorking w id0 v hw =>
    have hlen : w < c.pool.m_workers.length := by
      rcases List.get?_eq_some.mp hw with ⟨hl, _⟩
      exact hl
    rcases hwf with ⟨r, hfin⟩ | ⟨w2, hold⟩ | hq2
    · by_cases hid : id = id0
      · subst hid
        exact Or.inr (Or.inl ⟨w, holdsIn_set_self hlen ⟨v, Or.inr (Or.inl rfl)⟩⟩)
      · refine Or.inl ⟨r, ?_⟩
        show status_upd c.pool.m_task_status id0
          (fun e => { e with status := Status.Working }) id = some ⟨Status.Finished, r⟩
        rw [status_upd_ne _ _ hid]
        exact hfin
    · by_cases hww : w2 = w
      · subst hww
        rcases hold with ⟨v0, h0 | h0 | h0⟩
        · rw [hw] at h0
          have h1 : id0 = id := by
            simp only [Option.some.injEq, WorkerState.gotTask.injEq] at h0
            exact h0.1
          subst h1
          exact Or.inr (Or.inl ⟨w2, holdsIn_set_self hlen ⟨v, Or.inr (Or.inl rfl)⟩⟩)
        · rw [hw] at h0
          cases h0
        · rw [hw] at h0
          cases h0
      · exact Or.inr (Or.inl ⟨w2, holdsIn_set_other hww hold⟩)
    · exact Or.inr (Or.inr hq2)
  | writeResult w id0 v hw =>
    have hlen : w < c.pool.m_workers.length := by
      rcases List.get?_eq_some.mp hw with ⟨hl, _⟩
      exact hl
    rcases hwf with ⟨r, hfin⟩ | ⟨w2, hold⟩ | hq2
    · by_cases hid : id = id0
      · subst hid
        exact Or.inr (Or.inl ⟨w, holdsIn_set_self hlen ⟨v, Or.inr (Or.inr rfl)⟩⟩)
      · refine Or.inl ⟨r, ?_⟩
        show status_upd c.pool.m_task_status id0
          (fun e => { e with result := v }) id = some ⟨Status.Finished, r⟩
        rw [status_upd_ne _ _ hid]
        exact hfin
    · by_cases hww : w2 = w
      · subst hww
        rcases hold with ⟨v0, h0 | h0 | h0⟩
        · rw [hw] at h0
          cases h0
        · rw [hw] at h0
          have h1 : id0 = id := by
            simp only [Option.some.injEq, WorkerState.working.injEq] at h0
            exact h0.1
          subst h1
          exact Or.inr (Or.inl ⟨w2, holdsIn_set_self hlen ⟨v, Or.inr (Or.inr rfl)⟩⟩)
        · rw [hw] at h0
          cases h0
      · exact Or.inr (Or.inl ⟨w2, holdsIn_set_other hww hold⟩)
    · exact Or.inr (Or.inr hq2)
  | markFinished w id0 v hw =>
    rcases hwf with ⟨r, hfin⟩ | ⟨w2, hold⟩ | hq2
    · by_cases hid : id = id0
      · subst hid
        refine Or.inl ⟨v, ?_⟩
        show status_upd c.pool.m_task_status id
          (fun e => { e with status := Status.Finished }) id =
          some ⟨Status.Finished, v⟩
        rcases (hi.wroteStatus w id v hw).1 with hE | hE <;>
          (rw [status_upd_self, hE]; rfl)
      · refine Or.inl ⟨r, ?_⟩
        show status_upd c.pool.m_task_status id0
          (fun e => { e with status := Status.Finished }) id = some ⟨Status.Finished, r⟩
        rw [status_upd_ne _ _ hid]
        exact hfin
    · by_cases hww : w2 = w
      · subst hww
        rcases hold with ⟨v0, h0 | h0 | h0⟩
        · rw [hw] at h0
          cases h0
        · rw [hw] at h0
          cases h0
        · rw [hw] at h0
          have h1 : id0 = id := by
            simp only [Option.some.injEq, WorkerState.wroteResult.injEq] at h0
            exact h0.1
          subst h1
          refine Or.inl ⟨v, ?_⟩
          show status_upd c.pool.m_task_status id0
            (fun e => { e with status := Status.Finished }) id0 =
            some ⟨Status.Finished, v⟩
          rcases (hi.wroteStatus w2 id0 v hw).1 with hE | hE <;>
            (rw [status_upd_self, hE]; rfl)
      · exact Or.inr (Or.inl ⟨w2, holdsIn_set_other hww hold⟩)
    · exact Or.inr (Or.inr hq2)
  | terminateEnd hc hall =>
    rcases hwf with ⟨r, hfin⟩ | ⟨w2, hold⟩ | hq2
    · exact Or.inl ⟨r, hfin⟩
    · rcases hold with ⟨v0, h0 | h0 | h0⟩ <;>
        (have hx := hall _ (List.get?_mem h0); cases hx)
    · have hdrain := hi.joinDrain hj hall
      rw [queueIds, hdrain] at hq2
      cases hq2

/-- While the caller is blocked joining, the only steps are worker steps (plus the
final terminate completion): they keep the caller joining, preserve the invariant,
and preserve `willFinish` for every id. -/
theorem joining_wf {cB c3 : Config} {tr : List Label} (h : Steps cB tr c3)
    (hjoin : cB.caller = CallerPhase.joining) (hiB : Inv cB)
    (hnoe : Label.terminateEnd ∉ tr) :
    c3.caller = CallerPhase.joining ∧ Inv c3 ∧
    ∀ id, willFinish cB id → willFinish c3 id := by
  induction h with
  | refl => exact ⟨hjoin, hiB, fun _ hwf => hwf⟩
  | cons hstep hrest ih =>
    rename_i c c1 c2 l tr2
    have hnoe1 : Label.terminateEnd ∉ tr2 := fun hm => hnoe (List.mem_cons_of_mem _ hm)
    have hj1 : c1.caller = CallerPhase.joining := by
      cases hstep with
      | dequeue w id v rest hw hq => exact hjoin
      | workerExit w hw hq ht => exact hjoin
      | markWorking w id v hw => exact hjoin
      | writeResult w id v hw => exact hjoin
      | markFinished w id v hw => exact hjoin
      | terminateEnd hc hall => exact absurd (List.mem_cons_self _ _) hnoe
      | submitBegin v hc hw =>
        rw [hjoin] at hc
        cases hc
      | submitOk v hc =>
        rw [hjoin] at hc
        cases hc
      | submitInsert id v hc =>
        rw [hjoin] at hc
        cases hc
      | submitRejected v hc hw =>
        rw [hjoin] at hc
        cases hc
      | graceBegin hc hw => exact rfl
      | graceNoop hc hw =>
        rw [hjoin] at hc
        cases hc
      | nowBegin hc hw => exact rfl
      | nowNoop hc hw =>
        rw [hjoin] at hc
        cases hc
      | initStep n d hc =>
        rw [hjoin] at hc
        cases hc
    rcases ih hj1 (inv_step hstep hiB) hnoe1 with ⟨hj3, hi3, hp⟩
    exact ⟨hj3, hi3, fun id hwf => hp id (wf_step hstep hiB hjoin hwf)⟩

/-- C1 (amended): after a graceful shutdown that found the pool working returns
(terminated flag set, workers drain and exit, caller joins them all), every task
id whose status entry at the moment of the call was Finished or Working — and
every Waiting id still backed by a queue item or an owning worker — reports
Finished.  (The amendment drops exactly the orphaned Waiting entries: ids
discarded by an earlier `terminate_now`, which stay Waiting forever — see the
counterexample — and ids whose Finished entry was reverted to Waiting by the
unlocked line-144 insertion racing the worker.) -/
theorem c1_graceful_shutdown_finishes_all {tr1 tr2 : List Label} {c cB c3 cD : Config}
    (h1 : Steps initConfig tr1 c)
    (hb : Step c Label.graceBegin cB)
    (h2 : Steps cB tr2 c3)
    (hnoe : Label.terminateEnd ∉ tr2)
    (he : Step c3 Label.terminateEnd cD) :
    ∀ id ts, c.pool.m_task_status id = some ts →
      (ts.status = Status.Waiting → id ∈ queueIds c.pool ∨ ∃ w, holdsAt c w id) →
      ∃ r, cD.pool.m_task_status id = some ⟨Status.Finished, r⟩ := by
  intro id ts hts hback
  have hiC : Inv c := inv_steps h1 inv_init
  cases hb with
  | graceBegin hc hw =>
    have hiB := inv_graceBegin hc hw hiC
    have hwfB : willFinish ⟨{ c.pool with m_terminated := true },
        CallerPhase.joining⟩ id := by
      rcases ts with ⟨st, r⟩
      cases st with
      | Finished => exact Or.inl ⟨r, hts⟩
      | Working =>
        rcases hiC.workingOwned id ⟨Status.Working, r⟩ hts rfl with ⟨w0, hw0⟩
        exact Or.inr (Or.inl ⟨w0, hw0⟩)
      | Waiting =>
        rcases hback rfl with hq | ⟨w0, hw0⟩
        · exact Or.inr (Or.inr hq)
        · exact Or.inr (Or.inl ⟨w0, hw0⟩)
    rcases joining_wf h2 rfl hiB hnoe with ⟨hj3, hi3, hp⟩
    have hwf3 := hp id hwfB
    cases he with
    | terminateEnd hc3 hall =>
      rcases hwf3 with ⟨r, hfin⟩ | ⟨w2, hold⟩ | hq2
      · exact ⟨r, hfin⟩
      · rcases hold with ⟨v0, h0 | h0 | h0⟩ <;>
          (have hx := hall _ (List.get?_mem h0); cases hx)
      · have hdrain := hi3.joinDrain hj3 hall
        rw [queueIds, hdrain] at hq2
        cases hq2

/-- C1 counterexample to the claim as stated: a concrete run in which id 0 is
submitted, then discarded by an immediate shutdown, the pool is re-initialized and
a graceful shutdown runs to completion; id 0 was submitted before the graceful
call, yet after it returns its status is still Waiting, not Finished. -/
theorem c1_counterexample :
    Steps initConfig
      [Label.initStep 1 false, Label.submitBegin 7, Label.submitOk 7 0,
       Label.submitInsert 0, Label.nowBegin, Label.workerExit 0,
       Label.terminateEnd, Label.initStep 1 false] cexCallCfg ∧
    Step cexCallCfg Label.graceBegin
      ⟨{ cexCallCfg.pool with m_terminated := true }, CallerPhase.joining⟩ ∧
    Steps ⟨{ cexCallCfg.pool with m_terminated := true }, CallerPhase.joining⟩
      [Label.workerExit 0, Label.terminateEnd] cexFinalCfg ∧
    cexCallCfg.pool.m_task_status 0 = some ⟨Status.Waiting, 0⟩ ∧
    cexFinalCfg.pool.m_task_status 0 = some ⟨Status.Waiting, 0⟩ ∧
    Status.Waiting ≠ Status.Finished := by
  refine ⟨?_, ?_, ?_, rfl, rfl, by decide⟩
  · exact Steps.cons (Step.initStep initConfig 1 false rfl)
      (Steps.cons (Step.submitBegin _ 7 rfl rfl)
        (Steps.cons (Step.submitOk _ 7 rfl)
          (Steps.cons (Step.submitInsert _ 0 7 rfl)
            (Steps.cons (Step.nowBegin _ rfl rfl)
              (Steps.cons (Step.workerExit _ 0 rfl rfl rfl)
                (Steps.cons (Step.terminateEnd _ rfl (by decide))
                  (Steps.cons (Step.initStep _ 1 false rfl) (Steps.refl _))))))))
  · exact Step.graceBegin _ rfl rfl
  · exact Steps.cons (Step.workerExit _ 0 rfl rfl rfl)
      (Steps.cons (Step.terminateEnd _ rfl (by decide)) (Steps.refl _))

/-- Witness for C1 on a concrete run: one worker, one task still queued at the
graceful call; after the shutdown completes, the submitted id reports Finished
with its result. -/
theorem c1_witness :
    ∃ r,
      status_upd
        (status_upd
          (status_upd
            (status_upd (fun _ => none) 0 (fun e => { e with status := Status.Waiting }))
            0 (fun e => { e with status := Status.Working }))
          0 (fun e => { e with result := 5 }))
        0 (fun e => { e with status := Status.Finished }) 0 =
      some ⟨Status.Finished, r⟩ :=
  c1_graceful_shutdown_finishes_all
    (Steps.cons (Step.initStep initConfig 1 false rfl)
      (Steps.cons (Step.submitBegin _ 5 rfl rfl)
        (Steps.cons (Step.submitOk _ 5 rfl)
          (Steps.cons (Step.submitInsert _ 0 5 rfl) (Steps.refl _)))))
    (Step.graceBegin _ rfl rfl)
    (Steps.cons (Step.dequeue _ 0 0 5 [] rfl rfl)
      (Steps.cons (Step.markWorking _ 0 0 5 rfl)
        (Steps.cons (Step.writeResult _ 0 0 5 rfl)
          (Steps.cons (Step.markFinished _ 0 0 5 rfl)
            (Steps.cons (Step.workerExit _ 0 rfl rfl rfl) (Steps.refl _))))))
    (by decide)
    (Step.terminateEnd _ rfl (by decide))
    0 ⟨Status.Waiting, 0⟩ rfl (fun _ => Or.inl (by decide))

/-- A cancelled task (entry Waiting, not queued, owned by no worker, id already
assigned) stays cancelled across every step, and that step never dequeues it. -/
theorem cancelled_step {c c' : Config} {l : Label} (h : Step c l c') (hi : Inv c)
    {id : Nat}
    (hp : c.pool.m_task_status id = some ⟨Status.Waiting, 0⟩ ∧ id ∉ queueIds c.pool ∧
          (∀ w, ¬ holdsAt c w id) ∧ id < c.pool.m_tasks.next_id) :
    (c'.pool.m_task_status id = some ⟨Status.Waiting, 0⟩ ∧ id ∉ queueIds c'.pool ∧
     (∀ w, ¬ holdsAt c' w id) ∧ id < c'.pool.m_tasks.next_id) ∧
    ∀ w, l ≠ Label.dequeue w id := by
  obtain ⟨hPe, hPq, hPh, hPb⟩ := hp
  cases h with
  | submitBegin v hc hw =>
    exact ⟨⟨hPe, hPq, hPh, hPb⟩, fun w heq => by cases heq⟩
  | submitOk v hc =>
    have hne : id ≠ c.pool.m_tasks.next_id := Nat.ne_of_lt hPb
    refine ⟨⟨hPe, ?_, hPh, ?_⟩, ?_⟩
    · show id ∉ queueIds { c.pool with m_tasks := (c.pool.m_tasks.emplace v).1 }
      simp only [queueIds, task_queue.emplace, List.map_append,
        List.map_cons, List.map_nil, List.mem_append, List.mem_singleton]
      rintro (h1 | h1)
      · exact hPq (by simpa [queueIds] using h1)
      · exact hne h1
    · show id < c.pool.m_tasks.next_id + 1
      omega
    · intro w heq
      cases heq
  | submitInsert j v hc =>
    refine ⟨⟨?_, hPq, hPh, hPb⟩, fun w heq => by cases heq⟩
    show status_upd c.pool.m_task_status j
      (fun e => { e with status := Status.Waiting }) id = some ⟨Status.Waiting, 0⟩
    by_cases hj : id = j
    · rw [hj] at hPe ⊢
      exact insert_resolves (Or.inl hPe)
    · rw [status_upd_ne _ _ hj]
      exact hPe
  | submitRejected v hc hw =>
    exact ⟨⟨hPe, hPq, hPh, hPb⟩, fun w heq => by cases heq⟩
  | dequeue w j v rest hw hq =>
    have hjq : j ∈ queueIds c.pool := by simp [queueIds, hq]
    have hne : j ≠ id := fun he => hPq (he ▸ hjq)
    refine ⟨⟨hPe, ?_, ?_, hPb⟩, ?_⟩
    · intro hmem
      apply hPq
      simp only [queueIds] at hmem ⊢
      rw [hq]
      simp only [List.map_cons, List.mem_cons]
      exact Or.inr hmem
    · intro w3 h3
      rcases holdsIn_set_cases h3 with ⟨_, _, v3, hx⟩ | ⟨_, hold⟩
      · rcases hx with hxx | hxx | hxx <;> cases hxx <;> exact hne rfl
      · exact hPh w3 hold
    · intro w3 heq
      injection heq with h1 h2
      exact hne h2
  | workerExit w hw hq ht =>
    refine ⟨⟨hPe, hPq, ?_, hPb⟩, fun w3 heq => by cases heq⟩
    intro w3 h3
    rcases holdsIn_set_cases h3 with ⟨_, _, v3, hx⟩ | ⟨_, hold⟩
    · rcases hx with hxx | hxx | hxx <;> cases hxx
    · exact hPh w3 hold
  | markWorking w j v hw =>
    have hne : j ≠ id := by
      intro he
      exact hPh w ⟨v, Or.inl (he ▸ hw)⟩
    refine ⟨⟨?_, hPq, ?_, hPb⟩, fun w3 heq => by cases heq⟩
    · simp only [status_upd]
      rw [if_neg (fun he => hne he.symm)]
      exact hPe
    · intro w3 h3
      rcases holdsIn_set_cases h3 with ⟨_, _, v3, hx⟩ | ⟨_, hold⟩
      · rcases hx with hxx | hxx | hxx <;> cases hxx <;> exact hne rfl
      · exact hPh w3 hold
  | writeResult w j v hw =>
    have hne : j ≠ id := by
      intro he
      exact hPh w ⟨v, Or.inr (Or.inl (he ▸ hw))⟩
    refine ⟨⟨?_, hPq, ?_, hPb⟩, fun w3 heq => by cases heq⟩
    · simp only [status_upd]
      rw [if_neg (fun he => hne he.symm)]
      exact hPe
    · intro w3 h3
      rcases holdsIn_set_cases h3 with ⟨_, _, v3, hx⟩ | ⟨_, hold⟩
      · rcases hx with hxx | hxx | hxx <;> cases hxx <;> exact hne rfl
      · exact hPh w3 hold
  | markFinished w j v hw =>
    have hne : j ≠ id := by
      intro he
      exact hPh w ⟨v, Or.inr (Or.inr (he ▸ hw))⟩
    refine ⟨⟨?_, hPq, ?_, hPb⟩, fun w3 heq => by cases heq⟩
    · simp only [status_upd]
      rw [if_neg (fun he => hne he.symm)]
      exact hPe
    · intro w3 h3
      rcases holdsIn_set_cases h3 with ⟨_, _, v3, hx⟩ | ⟨_, hold⟩
      · rcases hx with hxx | hxx | hxx <;> cases hxx
      · exact hPh w3 hold
  | graceBegin hc hw =>
    exact ⟨⟨hPe, hPq, hPh, hPb⟩, fun w heq => by cases heq⟩
  | graceNoop hc hw =>
    refine ⟨⟨hPe, hPq, ?_, hPb⟩, fun w heq => by cases heq⟩
    intro w3 h3
    exact absurd h3 holdsIn_nil
  | nowBegin hc hw =>
    refine ⟨⟨hPe, ?_, hPh, hPb⟩, fun w heq => by cases heq⟩
    intro hmem
    simp [queueIds, task_queue.clear] at hmem
  | nowNoop hc hw =>
    refine ⟨⟨hPe, ?_, ?_, hPb⟩, fun w heq => by cases heq⟩
    · intro hmem
      simp [queueIds, task_queue.clear] at hmem
    · intro w3 h3
      exact absurd h3 holdsIn_nil
  | terminateEnd hc hall =>
    refine ⟨⟨hPe, hPq, ?_, hPb⟩, fun w heq => by cases heq⟩
    intro w3 h3
    exact absurd h3 holdsIn_nil
  | initStep n d hc =>
    refine ⟨⟨?_, ?_, ?_, ?_⟩, fun w heq => by cases heq⟩
    · show (initializePool c.pool n d).m_task_status id = _
      rw [initializePool_m_task_status]
      exact hPe
    · show id ∉ queueIds (initializePool c.pool n d)
      simp only [queueIds, initializePool_m_tasks]
      exact hPq
    · intro w3 h3
      by_cases hcond : (c.pool.m_initialized || c.pool.m_terminated) = true
      · have hpool : initializePool c.pool n d = c.pool := by
          simp [initializePool, hcond]
        have h4 : holdsIn (initializePool c.pool n d).m_workers w3 id := h3
        rw [hpool] at h4
        exact hPh w3 h4
      · have hI : c.pool.m_initialized = false := by
          simp at hcond
          exact hcond.1
        have hT : c.pool.m_terminated = false := by
          simp at hcond
          exact hcond.2
        have hWk : c.pool.m_workers = [] := hi.uninitEmpty hc hI
        have hpool : initializePool c.pool n d =
            { c.pool with
              m_workers := List.replicate n WorkerState.idle,
              m_initialized := !(List.replicate n WorkerState.idle).isEmpty } := by
          simp [initializePool, hI, hT, hWk]
        have h4 : holdsIn (initializePool c.pool n d).m_workers w3 id := h3
        rw [hpool] at h4
        exact absurd h4 (holdsIn_all_idle (fun st hst => List.eq_of_mem_replicate hst))
    · show id < (initializePool c.pool n d).m_tasks.next_id
      rw [initializePool_m_tasks]
      exact hPb

/-- A cancelled task stays cancelled along every trace, and is never dequeued. -/
theorem cancelled_steps {c c2 : Config} {tr : List Label} (h : Steps c tr c2)
    (hi : Inv c) {id : Nat}
    (hp : c.pool.m_task_status id = some ⟨Status.Waiting, 0⟩ ∧ id ∉ queueIds c.pool ∧
          (∀ w, ¬ holdsAt c w id) ∧ id < c.pool.m_tasks.next_id) :
    (c2.pool.m_task_status id = some ⟨Status.Waiting, 0⟩ ∧ id ∉ queueIds c2.pool ∧
     (∀ w, ¬ holdsAt c2 w id) ∧ id < c2.pool.m_tasks.next_id) ∧
    ¬ dequeuedIn tr id := by
  induction h with
  | refl =>
    refine ⟨hp, ?_⟩
    rintro ⟨w, hmem⟩
    cases hmem
  | cons hstep hrest ih =>
    rcases cancelled_step hstep hi hp with ⟨hp1, hlab⟩
    rcases ih (inv_step hstep hi) hp1 with ⟨hp2, hnd⟩
    refine ⟨hp2, ?_⟩
    rintro ⟨w, hmem⟩
    rcases List.mem_cons.mp hmem with h1 | h1
    · exact hlab w h1.symm
    · exact hnd ⟨w, h1⟩

/-- A task that is owned by a worker or already Finished — whose id is already
assigned, and which is not the target of a pending status insertion — keeps all
three properties across every step.  (The last conjunct is what shields the
Finished entry from the unlocked line-144 insertion: a pending insertion always
concerns a strictly fresher id.) -/
theorem held_step {c c' : Config} {l : Label} (h : Step c l c') (hi : Inv c) {id : Nat}
    (hh : ((∃ w, holdsAt c w id) ∨
           ∃ r, c.pool.m_task_status id = some ⟨Status.Finished, r⟩) ∧
          id < c.pool.m_tasks.next_id ∧
          ∀ j v, c.caller = CallerPhase.submitInserting j v → id ≠ j) :
    ((∃ w, holdsAt c' w id) ∨
     ∃ r, c'.pool.m_task_status id = some ⟨Status.Finished, r⟩) ∧
    id < c'.pool.m_tasks.next_id ∧
    ∀ j v, c'.caller = CallerPhase.submitInserting j v → id ≠ j := by
  obtain ⟨hmain, hb, hpn⟩ := hh
  have hb' : id < c'.pool.m_tasks.next_id :=
    Nat.lt_of_lt_of_le hb (step_next_id_bounds h).1
  refine ⟨?_, hb', ?_⟩
  · rcases hmain with ⟨w, hold⟩ | ⟨r, hfin⟩
    · have hlenOf : ∀ {l2 : List WorkerState} {i : Nat} {st : WorkerState},
          l2.get? i = some st → i < l2.length := by
        intro l2 i st hst
        rcases List.get?_eq_some.mp hst with ⟨hl, _⟩
        exact hl
      cases h with
      | submitBegin v hc hw => exact Or.inl ⟨w, hold⟩
      | submitOk v hc => exact Or.inl ⟨w, hold⟩
      | submitInsert j v hc => exact Or.inl ⟨w, hold⟩
      | submitRejected v hc hw => exact Or.inl ⟨w, hold⟩
      | dequeue w2 j v rest hw hq =>
        have hne : w ≠ w2 := by
          intro he
          exact idle_not_holder hw (he ▸ hold)
        exact Or.inl ⟨w, holdsIn_set_other hne hold⟩
      | workerExit w2 hw hq ht =>
        have hne : w ≠ w2 := by
          intro he
          exact idle_not_holder hw (he ▸ hold)
        exact Or.inl ⟨w, holdsIn_set_other hne hold⟩
      | markWorking w2 j v hw =>
        by_cases hww : w = w2
        · subst hww
          rcases hold with ⟨v0, h0 | h0 | h0⟩ <;> rw [hw] at h0 <;> cases h0
          exact Or.inl ⟨w, holdsIn_set_self (hlenOf hw) ⟨v, Or.inr (Or.inl rfl)⟩⟩
        · exact Or.inl ⟨w, holdsIn_set_other hww hold⟩
      | writeResult w2 j v hw =>
        by_cases hww : w = w2
        · subst hww
          rcases hold with ⟨v0, h0 | h0 | h0⟩ <;> rw [hw] at h0 <;> cases h0
          exact Or.inl ⟨w, holdsIn_set_self (hlenOf hw) ⟨v, Or.inr (Or.inr rfl)⟩⟩
        · exact Or.inl ⟨w, holdsIn_set_other hww hold⟩
      | markFinished w2 j v hw =>
        by_cases hww : w = w2
        · subst hww
          rcases hold with ⟨v0, h0 | h0 | h0⟩ <;> rw [hw] at h0
          · cases h0
          · cases h0
          · have hji : j = id := by
              simp only [Option.some.injEq, WorkerState.wroteResult.injEq] at h0
              exact h0.1
            refine Or.inr ⟨v, ?_⟩
            show status_upd c.pool.m_task_status j
              (fun e => { e with status := Status.Finished }) id =
              some ⟨Status.Finished, v⟩
            rw [← hji, status_upd_self]
            rcases (hi.wroteStatus w j v hw).1 with hE | hE <;> (rw [hE]; rfl)
        · exact Or.inl ⟨w, holdsIn_set_other hww hold⟩
      | graceBegin hc hw => exact Or.inl ⟨w, hold⟩
      | nowBegin hc hw => exact Or.inl ⟨w, hold⟩
      | graceNoop hc hw =>
        have hnj : c.caller ≠ CallerPhase.joining := by
          rw [hc]
          intro h2
          cases h2
        have hT : c.pool.m_terminated = false := hi.outTerm hnj
        have hI : c.pool.m_initialized = false := by
          simp [ working_unsafe, hT] at hw
          exact hw
        have hWk : c.pool.m_workers = [] := hi.uninitEmpty hc hI
        have h2 : holdsIn c.pool.m_workers w id := hold
        rw [hWk] at h2
        exact absurd h2 holdsIn_nil
      | nowNoop hc hw =>
        have hnj : c.caller ≠ CallerPhase.joining := by
          rw [hc]
          intro h2
          cases h2
        have hT : c.pool.m_terminated = false := hi.outTerm hnj
        have hI : c.pool.m_initialized = false := by
          simp [ working_unsafe, hT] at hw
          exact hw
        have hWk : c.pool.m_workers = [] := hi.uninitEmpty hc hI
        have h2 : holdsIn c.pool.m_workers w id := hold
        rw [hWk] at h2
        exact absurd h2 holdsIn_nil
      | terminateEnd hc hall =>
        rcases hold with ⟨v0, h0 | h0 | h0⟩ <;>
          (have hx := hall _ (List.get?_mem h0); cases hx)
      | initStep n d hc =>
        by_cases hcond : (c.pool.m_initialized || c.pool.m_terminated) = true
        · have hpool : initializePool c.pool n d = c.pool := by
            simp [initializePool, hcond]
          refine Or.inl ⟨w, ?_⟩
          show holdsIn (initializePool c.pool n d).m_workers w id
          rw [hpool]
          exact hold
        · have hI : c.pool.m_initialized = false := by
            simp at hcond
            exact hcond.1
          have hWk : c.pool.m_workers = [] := hi.uninitEmpty hc hI
          have h2 : holdsIn c.pool.m_workers w id := hold
          rw [hWk] at h2
          exact absurd h2 holdsIn_nil
    · have hneOf : ∀ {w2 j v2}, c.pool.m_workers.get? w2 = some (WorkerState.gotTask j v2) ∨
          c.pool.m_workers.get? w2 = some (WorkerState.working j v2) ∨
          c.pool.m_workers.get? w2 = some (WorkerState.wroteResult j v2) → j ≠ id := by
        rintro w2 j v2 (hg | hg | hg) he
        · rcases (hi.gotStatus w2 j v2 hg).1 with hE | ⟨hE, _⟩ <;>
            (rw [he, hfin] at hE; cases hE)
        · rcases (hi.workingStatus w2 j v2 hg).1 with hE | hE <;>
            (rw [he, hfin] at hE; cases hE)
        · rcases (hi.wroteStatus w2 j v2 hg).1 with hE | hE <;>
            (rw [he, hfin] at hE; cases hE)
      cases h with
      | submitBegin v hc hw => exact Or.inr ⟨r, hfin⟩
      | submitOk v hc => exact Or.inr ⟨r, hfin⟩
      | submitInsert j v hc =>
        refine Or.inr ⟨r, ?_⟩
        have hne : id ≠ j := hpn j v hc
        show status_upd c.pool.m_task_status j
          (fun e => { e with status := Status.Waiting }) id = some ⟨Status.Finished, r⟩
        rw [status_upd_ne _ _ hne]
        exact hfin
      | submitRejected v hc hw => exact Or.inr ⟨r, hfin⟩
      | dequeue w2 j v rest hw hq => exact Or.inr ⟨r, hfin⟩
      | workerExit w2 hw hq ht => exact Or.inr ⟨r, hfin⟩
      | markWorking w2 j v hw =>
        refine Or.inr ⟨r, ?_⟩
        have hne : j ≠ id := hneOf (Or.inl hw)
        simp only [status_upd]
        rw [if_neg (fun he => hne he.symm)]
        exact hfin
      | writeResult w2 j v hw =>
        refine Or.inr ⟨r, ?_⟩
        have hne : j ≠ id := hneOf (Or.inr (Or.inl hw))
        simp only [status_upd]
        rw [if_neg (fun he => hne he.symm)]
        exact hfin
      | markFinished w2 j v hw =>
        refine Or.inr ⟨r, ?_⟩
        have hne : j ≠ id := hneOf (Or.inr (Or.inr hw))
        simp only [status_upd]
        rw [if_neg (fun he => hne he.symm)]
        exact hfin
      | graceBegin hc hw => exact Or.inr ⟨r, hfin⟩
      | graceNoop hc hw => exact Or.inr ⟨r, hfin⟩
      | nowBegin hc hw => exact Or.inr ⟨r, hfin⟩
      | nowNoop hc hw => exact Or.inr ⟨r, hfin⟩
      | terminateEnd hc hall => exact Or.inr ⟨r, hfin⟩
      | initStep n d hc =>
        refine Or.inr ⟨r, ?_⟩
        show (initializePool c.pool n d).m_task_status id = _
        rw [initializePool_m_task_status]
        exact hfin
  · cases h with
    | submitBegin v hc hw =>
      intro j v2 h2
      cases h2
    | submitOk v hc =>
      intro j v2 h2
      injection h2 with e1 e2
      subst e1
      exact Nat.ne_of_lt hb
    | submitInsert j0 v hc =>
      intro j v2 h2
      cases h2
    | submitRejected v hc hw => exact hpn
    | dequeue w2 j v rest hw hq => exact hpn
    | workerExit w2 hw hq ht => exact hpn
    | markWorking w2 j v hw => exact hpn
    | writeResult w2 j v hw => exact hpn
    | markFinished w2 j v hw => exact hpn
    | graceBegin hc hw =>
      intro j v2 h2
      cases h2
    | graceNoop hc hw =>
      intro j v2 h2
      cases h2
    | nowBegin hc hw =>
      intro j v2 h2
      cases h2
    | nowNoop hc hw =>
      intro j v2 h2
      cases h2
    | terminateEnd hc hall =>
      intro j v2 h2
      cases h2
    | initStep n d hc => exact hpn

/-- A task owned-or-Finished (with its id assigned and no insertion pending on it)
keeps those properties along every trace. -/
theorem held_steps {c c2 : Config} {tr : List Label} (h : Steps c tr c2) (hi : Inv c)
    {id : Nat}
    (hh : ((∃ w, holdsAt c w id) ∨
           ∃ r, c.pool.m_task_status id = some ⟨Status.Finished, r⟩) ∧
          id < c.pool.m_tasks.next_id ∧
          ∀ j v, c.caller = CallerPhase.submitInserting j v → id ≠ j) :
    ((∃ w, holdsAt c2 w id) ∨
     ∃ r, c2.pool.m_task_status id = some ⟨Status.Finished, r⟩) ∧
    id < c2.pool.m_tasks.next_id ∧
    ∀ j v, c2.caller = CallerPhase.submitInserting j v → id ≠ j := by
  induction h with
  | refl => exact hh
  | cons hstep _ ih => exact ih (inv_step hstep hi) (held_step hstep hi hh)

/-- C2: when `terminate_now` clears the queue, every task still queued at that
moment is removed without being executed and stays Waiting forever — in every
later configuration its entry is still the default Waiting entry, it is never back
in the queue, and no worker ever dequeues it; while every task already dequeued at
that moment (owned by some worker) runs to completion and reports Finished by the
time `terminate_now` returns (after the joins). -/
theorem c2_immediate_shutdown_cancels_queued {tr1 : List Label} {c cB : Config}
    (h1 : Steps initConfig tr1 c)
    (hb : Step c Label.nowBegin cB) :
    (∀ id, id ∈ queueIds c.pool →
      ∀ {tr2 : List Label} {c2 : Config}, Steps cB tr2 c2 →
        c2.pool.m_task_status id = some ⟨Status.Waiting, 0⟩ ∧
        id ∉ queueIds c2.pool ∧ ¬ dequeuedIn tr2 id) ∧
    (∀ id w, holdsAt c w id →
      ∀ {tr2 : List Label} {c3 cD : Config}, Steps cB tr2 c3 →
        Step c3 Label.terminateEnd cD →
        ∃ r, cD.pool.m_task_status id = some ⟨Status.Finished, r⟩) := by
  have hiC : Inv c := inv_steps h1 inv_init
  cases hb with
  | nowBegin hc hw =>
    have hiB := inv_nowBegin hc hw hiC
    constructor
    · intro id hq tr2 c2 h2
      rcases List.mem_map.mp hq with ⟨p, hp, hfst⟩
      have hPe : c.pool.m_task_status id = some ⟨Status.Waiting, 0⟩ := by
        rcases hiC.queueWaiting p hp with h3 | ⟨h3, v2, h4⟩
        · rw [← hfst]
          exact h3
        · rw [hc] at h4
          cases h4
      have hPb : id < c.pool.m_tasks.next_id := by
        rw [← hfst]
        exact hiC.queueBound p hp
      have hPh : ∀ w, ¬ holdsAt c w id := by
        intro w hw2
        exact (holder_facts hiC hw2).1 hq
      rcases cancelled_steps h2 hiB
        ⟨hPe, fun hmem => by simp [queueIds, task_queue.clear] at hmem, hPh, hPb⟩
        with ⟨hp2, hnd⟩
      exact ⟨hp2.1, hp2.2.1, hnd⟩
    · intro id w hold tr2 c3 cD h2 he
      have hbnd : id < c.pool.m_tasks.next_id := (holder_facts hiC hold).2
      have hh3 := held_steps h2 hiB
        ⟨Or.inl ⟨w, hold⟩, hbnd, fun j v hcj => by cases hcj⟩
      cases he with
      | terminateEnd hc3 hall =>
        rcases hh3.1 with ⟨w0, hw0⟩ | ⟨r, hfin⟩
        · rcases hw0 with ⟨v0, h0 | h0 | h0⟩ <;>
            (have hx := hall _ (List.get?_mem h0); cases hx)
        · exact ⟨r, hfin⟩

/-- Witness for C2 on a concrete run: two workers, two tasks, worker 0 had dequeued
task 0 when the immediate shutdown cleared the queue; task 1, still queued, stays
Waiting at the return, task 0 reports Finished. -/
theorem c2_witness :
    (status_upd (status_upd (fun _ => none) 0 (fun e => { e with status := Status.Waiting }))
      1 (fun e => { e with status := Status.Waiting })) 1 =
        some ⟨Status.Waiting, 0⟩ ∧
    ∃ r,
      status_upd
        (status_upd
          (status_upd
            (status_upd
              (status_upd (fun _ => none) 0 (fun e => { e with status := Status.Waiting }))
              1 (fun e => { e with status := Status.Waiting }))
            0 (fun e => { e with status := Status.Working }))
          0 (fun e => { e with result := 5 }))
        0 (fun e => { e with status := Status.Finished }) 0 =
      some ⟨Status.Finished, r⟩ := by
  have hrun : Steps initConfig
      [Label.initStep 2 false, Label.submitBegin 5, Label.submitOk 5 0,
       Label.submitInsert 0, Label.submitBegin 6, Label.submitOk 6 1,
       Label.submitInsert 1, Label.dequeue 0 0]
      ⟨⟨⟨[(1, 6)], 2, 2⟩,
        status_upd (status_upd (fun _ => none) 0 (fun e => { e with status := Status.Waiting }))
          1 (fun e => { e with status := Status.Waiting }),
        [WorkerState.gotTask 0 5, WorkerState.idle], true, false⟩,
       CallerPhase.running⟩ :=
    Steps.cons (Step.initStep initConfig 2 false rfl)
      (Steps.cons (Step.submitBegin _ 5 rfl rfl)
        (Steps.cons (Step.submitOk _ 5 rfl)
          (Steps.cons (Step.submitInsert _ 0 5 rfl)
            (Steps.cons (Step.submitBegin _ 6 rfl rfl)
              (Steps.cons (Step.submitOk _ 6 rfl)
                (Steps.cons (Step.submitInsert _ 1 6 rfl)
                  (Steps.cons (Step.dequeue _ 0 0 5 [(1, 6)] rfl rfl)
                    (Steps.refl _))))))))
  have hb := Step.nowBegin
    ⟨⟨⟨[(1, 6)], 2, 2⟩,
      status_upd (status_upd (fun _ => none) 0 (fun e => { e with status := Status.Waiting }))
        1 (fun e => { e with status := Status.Waiting }),
      [WorkerState.gotTask 0 5, WorkerState.idle], true, false⟩,
     CallerPhase.running⟩ rfl rfl
  have hmain := c2_immediate_shutdown_cancels_queued hrun hb
  refine ⟨(hmain.1 1 (by decide) (Steps.refl _)).1, ?_⟩
  exact hmain.2 0 0 ⟨5, Or.inl rfl⟩
    (Steps.cons (Step.markWorking _ 0 0 5 rfl)
      (Steps.cons (Step.writeResult _ 0 0 5 rfl)
        (Steps.cons (Step.markFinished _ 0 0 5 rfl)
          (Steps.cons (Step.workerExit _ 0 rfl rfl rfl)
            (Steps.cons (Step.workerExit _ 1 rfl rfl rfl) (Steps.refl _))))))
    (Step.terminateEnd _ rfl (by decide))

/-- C4 counterexample to the claim as stated: a reachable run in which the worker
dequeues the freshly emplaced task 0 and drives it to Finished (result 5) before
the submitting caller's unlocked status insertion (line 144) executes; the
insertion then overwrites the Finished entry back to ⟨Waiting, 5⟩, so the status
moved backwards and Finished was not terminal. -/
theorem c4_counterexample :
    Steps initConfig
      [Label.initStep 1 false, Label.submitBegin 5, Label.submitOk 5 0,
       Label.dequeue 0 0, Label.markWorking 0 0, Label.writeResult 0 0 5,
       Label.markFinished 0 0] c4RaceCfg ∧
    Step c4RaceCfg (Label.submitInsert 0) c4RacedCfg ∧
    c4RaceCfg.pool.m_task_status 0 = some ⟨Status.Finished, 5⟩ ∧
    c4RacedCfg.pool.m_task_status 0 = some ⟨Status.Waiting, 5⟩ ∧
    statusRank Status.Waiting < statusRank Status.Finished := by
  refine ⟨?_, ?_, rfl, rfl, by decide⟩
  · exact Steps.cons (Step.initStep initConfig 1 false rfl)
      (Steps.cons (Step.submitBegin _ 5 rfl rfl)
        (Steps.cons (Step.submitOk _ 5 rfl)
          (Steps.cons (Step.dequeue _ 0 0 5 [] rfl rfl)
            (Steps.cons (Step.markWorking _ 0 0 5 rfl)
              (Steps.cons (Step.writeResult _ 0 0 5 rfl)
                (Steps.cons (Step.markFinished _ 0 0 5 rfl) (Steps.refl _)))))))
  · exact Step.submitInsert c4RaceCfg 0 5 rfl

/-- C4 (amended): across any step from a reachable configuration every status
entry persists, and — except across the unlocked `add_task` status insertion
aimed at that entry's own id (line 144) — its rank along Waiting → Working →
Finished never decreases, a Finished entry never changes, and every change is
made by the unique worker owning the id via the three routine statements.  The
line-144 insertion itself unconditionally (re)sets the pending id's status to
Waiting while keeping the stored result — which is what reverses a raced
Finished entry — and the emplace of a successful submission leaves the fresh id
with no status entry until that insertion runs. -/
theorem c4_status_transitions_monotonic {tr : List Label} {c c' : Config} {l : Label}
    (h0 : Steps initConfig tr c) (h : Step c l c') :
    (∀ id ts, c.pool.m_task_status id = some ts →
      ∃ ts', c'.pool.m_task_status id = some ts' ∧
        (l ≠ Label.submitInsert id →
          statusRank ts.status ≤ statusRank ts'.status ∧
          (ts.status = Status.Finished → ts' = ts) ∧
          (ts' ≠ ts → ∃ w, holdsAt c w id ∧
            (l = Label.markWorking w id ∨ l = Label.writeResult w id ts'.result ∨
             l = Label.markFinished w id)))) ∧
    (∀ id, l = Label.submitInsert id →
      ∃ v, c.caller = CallerPhase.submitInserting id v ∧
        c'.pool.m_task_status id =
          some ⟨Status.Waiting,
                ((c.pool.m_task_status id).getD defaultTaskStatus).result⟩) ∧
    ∀ v id2, l = Label.submitOk v id2 →
      c.pool.m_task_status id2 = none ∧ c'.pool.m_task_status id2 = none ∧
      id2 = c.pool.m_tasks.next_id := by
  have hi : Inv c := inv_steps h0 inv_init
  refine ⟨?_, ?_, ?_⟩
  · intro id ts hts
    cases h with
    | submitBegin v hc hw =>
      exact ⟨ts, hts, fun _ => ⟨Nat.le_refl _, fun _ => rfl, fun hne2 => absurd rfl hne2⟩⟩
    | submitOk v hc =>
      exact ⟨ts, hts, fun _ => ⟨Nat.le_refl _, fun _ => rfl, fun hne2 => absurd rfl hne2⟩⟩
    | submitInsert id0 v hc =>
      by_cases hid : id = id0
      · subst hid
        refine ⟨⟨Status.Waiting, ts.result⟩, ?_, ?_⟩
        · show status_upd c.pool.m_task_status id
            (fun e => { e with status := Status.Waiting }) id = _
          rw [status_upd_self, hts]
          rfl
        · intro hguard
          exact absurd rfl hguard
      · refine ⟨ts, ?_,
          fun _ => ⟨Nat.le_refl _, fun _ => rfl, fun hne2 => absurd rfl hne2⟩⟩
        show status_upd c.pool.m_task_status id0
          (fun e => { e with status := Status.Waiting }) id = some ts
        rw [status_upd_ne _ _ hid]
        exact hts
    | submitRejected v hc hw =>
      exact ⟨ts, hts, fun _ => ⟨Nat.le_refl _, fun _ => rfl, fun hne2 => absurd rfl hne2⟩⟩
    | dequeue w k v rest hw hq =>
      exact ⟨ts, hts, fun _ => ⟨Nat.le_refl _, fun _ => rfl, fun hne2 => absurd rfl hne2⟩⟩
    | workerExit w hw hq ht =>
      exact ⟨ts, hts, fun _ => ⟨Nat.le_refl _, fun _ => rfl, fun hne2 => absurd rfl hne2⟩⟩
    | markWorking w k v hw =>
      by_cases hid : id = k
      · subst hid
        rcases (hi.gotStatus w id v hw).1 with hE | ⟨hE, _⟩
        · rw [hE] at hts
          cases hts
          refine ⟨⟨Status.Working, 0⟩, ?_, ?_⟩
          · show status_upd c.pool.m_task_status id
              (fun e => { e with status := Status.Working }) id = _
            rw [status_upd_self, hE]
            rfl
          · intro _
            refine ⟨by decide, ?_, ?_⟩
            · intro hfin
              cases hfin
            · intro _
              exact ⟨w, ⟨v, Or.inl hw⟩, Or.inl rfl⟩
        · rw [hE] at hts
          cases hts
      · refine ⟨ts, ?_,
          fun _ => ⟨Nat.le_refl _, fun _ => rfl, fun hne2 => absurd rfl hne2⟩⟩
        show status_upd c.pool.m_task_status k
          (fun e => { e with status := Status.Working }) id = some ts
        rw [status_upd_ne _ _ hid]
        exact hts
    | writeResult w k v hw =>
      by_cases hid : id = k
      · subst hid
        rcases (hi.workingStatus w id v hw).1 with hE | hE
        · rw [hE] at hts
          cases hts
          refine ⟨⟨Status.Working, v⟩, ?_, ?_⟩
          · show status_upd c.pool.m_task_status id
              (fun e => { e with result := v }) id = _
            rw [status_upd_self, hE]
            rfl
          · intro _
            refine ⟨Nat.le_refl _, ?_, ?_⟩
            · intro hfin
              cases hfin
            · intro _
              exact ⟨w, ⟨v, Or.inr (Or.inl hw)⟩, Or.inr (Or.inl rfl)⟩
        · rw [hE] at hts
          cases hts
          refine ⟨⟨Status.Waiting, v⟩, ?_, ?_⟩
          · show status_upd c.pool.m_task_status id
              (fun e => { e with result := v }) id = _
            rw [status_upd_self, hE]
            rfl
          · intro _
            refine ⟨Nat.le_refl _, ?_, ?_⟩
            · intro hfin
              cases hfin
            · intro _
              exact ⟨w, ⟨v, Or.inr (Or.inl hw)⟩, Or.inr (Or.inl rfl)⟩
      · refine ⟨ts, ?_,
          fun _ => ⟨Nat.le_refl _, fun _ => rfl, fun hne2 => absurd rfl hne2⟩⟩
        show status_upd c.pool.m_task_status k
          (fun e => { e with result := v }) id = some ts
        rw [status_upd_ne _ _ hid]
        exact hts
    | markFinished w k v hw =>
      by_cases hid : id = k
      · subst hid
        rcases (hi.wroteStatus w id v hw).1 with hE | hE
        · rw [hE] at hts
          cases hts
          refine ⟨⟨Status.Finished, v⟩, ?_, ?_⟩
          · show status_upd c.pool.m_task_status id
              (fun e => { e with status := Status.Finished }) id = _
            rw [status_upd_self, hE]
            rfl
          · intro _
            refine ⟨by simp [statusRank], ?_, ?_⟩
            · intro hfin
              cases hfin
            · intro _
              exact ⟨w, ⟨v, Or.inr (Or.inr hw)⟩, Or.inr (Or.inr rfl)⟩
        · rw [hE] at hts
          cases hts
          refine ⟨⟨Status.Finished, v⟩, ?_, ?_⟩
          · show status_upd c.pool.m_task_status id
              (fun e => { e with status := Status.Finished }) id = _
            rw [status_upd_self, hE]
            rfl
          · intro _
            refine ⟨by simp [statusRank], ?_, ?_⟩
            · intro hfin
              cases hfin
            · intro _
              exact ⟨w, ⟨v, Or.inr (Or.inr hw)⟩, Or.inr (Or.inr rfl)⟩
      · refine ⟨ts, ?_,
          fun _ => ⟨Nat.le_refl _, fun _ => rfl, fun hne2 => absurd rfl hne2⟩⟩
        show status_upd c.pool.m_task_status k
          (fun e => { e with status := Status.Finished }) id = some ts
        rw [status_upd_ne _ _ hid]
        exact hts
    | graceBegin hc hw =>
      exact ⟨ts, hts, fun _ => ⟨Nat.le_refl _, fun _ => rfl, fun hne2 => absurd rfl hne2⟩⟩
    | graceNoop hc hw =>
      exact ⟨ts, hts, fun _ => ⟨Nat.le_refl _, fun _ => rfl, fun hne2 => absurd rfl hne2⟩⟩
    | nowBegin hc hw =>
      exact ⟨ts, hts, fun _ => ⟨Nat.le_refl _, fun _ => rfl, fun hne2 => absurd rfl hne2⟩⟩
    | nowNoop hc hw =>
      exact ⟨ts, hts, fun _ => ⟨Nat.le_refl _, fun _ => rfl, fun hne2 => absurd rfl hne2⟩⟩
    | terminateEnd hc hall =>
      exact ⟨ts, hts, fun _ => ⟨Nat.le_refl _, fun _ => rfl, fun hne2 => absurd rfl hne2⟩⟩
    | initStep n d hc =>
      refine ⟨ts, ?_,
        fun _ => ⟨Nat.le_refl _, fun _ => rfl, fun hne2 => absurd rfl hne2⟩⟩
      show (initializePool c.pool n d).m_task_status id = some ts
      rw [initializePool_m_task_status]
      exact hts
  · intro id heq
    cases h with
    | submitInsert id0 v hc =>
      injection heq with e1
      subst e1
      refine ⟨v, hc, ?_⟩
      show status_upd c.pool.m_task_status id0
        (fun e => { e with status := Status.Waiting }) id0 =
        some ⟨Status.Waiting,
              ((c.pool.m_task_status id0).getD defaultTaskStatus).result⟩
      exact status_upd_self _ _ _
    | submitBegin v hc hw => cases heq
    | submitOk v hc => cases heq
    | submitRejected v hc hw => cases heq
    | dequeue w k v rest hw hq => cases heq
    | workerExit w hw hq ht => cases heq
    | markWorking w k v hw => cases heq
    | writeResult w k v hw => cases heq
    | markFinished w k v hw => cases heq
    | graceBegin hc hw => cases heq
    | graceNoop hc hw => cases heq
    | nowBegin hc hw => cases heq
    | nowNoop hc hw => cases heq
    | terminateEnd hc hall => cases heq
    | initStep n d hc => cases heq
  · intro v id2 heq
    cases h with
    | submitOk v0 hc =>
      injection heq with h1 h2
      subst h2
      exact ⟨lookup_ge_none hi, lookup_ge_none hi, rfl⟩
    | submitBegin v0 hc hw => cases heq
    | submitInsert id0 v0 hc => cases heq
    | submitRejected v0 hc hw => cases heq
    | dequeue w k v0 rest hw hq => cases heq
    | workerExit w hw hq ht => cases heq
    | markWorking w k v0 hw => cases heq
    | writeResult w k v0 hw => cases heq
    | markFinished w k v0 hw => cases heq
    | graceBegin hc hw => cases heq
    | graceNoop hc hw => cases heq
    | nowBegin hc hw => cases heq
    | nowNoop hc hw => cases heq
    | terminateEnd hc hall => cases heq
    | initStep n d hc => cases heq

/-- Witness for C4 at a concrete reachable configuration: the owner marks task 0
Working; the entry persists, and since the step is not the status insertion for
id 0, its rank grows from Waiting to Working and the change is attributed to
worker 0. -/
theorem c4_witness :
    ∃ ts',
      status_upd
        (status_upd (fun _ => none) 0 (fun e => { e with status := Status.Waiting }))
        0 (fun e => { e with status := Status.Working }) 0 = some ts' ∧
      (Label.markWorking 0 0 ≠ Label.submitInsert 0 →
        statusRank (⟨Status.Waiting, 0⟩ : TaskStatus).status ≤ statusRank ts'.status ∧
        ((⟨Status.Waiting, 0⟩ : TaskStatus).status = Status.Finished →
          ts' = ⟨Status.Waiting, 0⟩) ∧
        (ts' ≠ ⟨Status.Waiting, 0⟩ → ∃ w, holdsAt c4SampleCfg w 0 ∧
          (Label.markWorking 0 0 = Label.markWorking w 0 ∨
           Label.markWorking 0 0 = Label.writeResult w 0 ts'.result ∨
           Label.markWorking 0 0 = Label.markFinished w 0))) :=
  (c4_status_transitions_monotonic
    (Steps.cons (Step.initStep initConfig 1 false rfl)
      (Steps.cons (Step.submitBegin _ 5 rfl rfl)
        (Steps.cons (Step.submitOk _ 5 rfl)
          (Steps.cons (Step.submitInsert _ 0 5 rfl)
            (Steps.cons (Step.dequeue _ 0 0 5 [] rfl rfl) (Steps.refl _))))))
    (Step.markWorking c4SampleCfg 0 0 5 rfl)).1 0 ⟨Status.Waiting, 0⟩ rfl

/-- An id that is no longer pending (and already assigned, so never reissued) is
never dequeued by any later step. -/
theorem not_queued_never_dequeued {c c2 : Config} {tr : List Label} (h : Steps c tr c2) :
    ∀ {id : Nat}, id ∉ queueIds c.pool → id < c.pool.m_tasks.next_id →
      ¬ dequeuedIn tr id := by
  induction h with
  | refl =>
    rintro id _ _ ⟨w, hmem⟩
    cases hmem
  | cons hstep hrest ih =>
    rename_i cA cB cC lab trr
    rintro id hnq hlt ⟨w0, hmem⟩
    rcases List.mem_cons.mp hmem with h1 | h1
    · cases hstep with
      | dequeue w k v rest hw hq =>
        injection h1 with e1 e2
        subst e2
        exact hnq (by simp [queueIds, hq])
      | submitBegin v hc hw => cases h1
      | submitOk v hc => cases h1
      | submitInsert k v hc => cases h1
      | submitRejected v hc hw => cases h1
      | workerExit w hw hq ht => cases h1
      | markWorking w k v hw => cases h1
      | writeResult w k v hw => cases h1
      | markFinished w k v hw => cases h1
      | graceBegin hc hw => cases h1
      | graceNoop hc hw => cases h1
      | nowBegin hc hw => cases h1
      | nowNoop hc hw => cases h1
      | terminateEnd hc hall => cases h1
      | initStep n d hc => cases h1
    · cases hstep with
      | submitBegin v hc hw => exact ih hnq hlt ⟨w0, h1⟩
      | submitOk v hc =>
        refine ih ?_ ?_ ⟨w0, h1⟩
        · show id ∉ queueIds { cA.pool with m_tasks := (cA.pool.m_tasks.emplace v).1 }
          simp only [queueIds, task_queue.emplace, List.map_append,
            List.map_cons, List.map_nil, List.mem_append, List.mem_singleton]
          rintro (h2 | h2)
          · exact hnq (by simpa [queueIds] using h2)
          · exact absurd h2 (Nat.ne_of_lt hlt)
        · show id < cA.pool.m_tasks.next_id + 1
          omega
      | submitInsert k v hc => exact ih hnq hlt ⟨w0, h1⟩
      | submitRejected v hc hw => exact ih hnq hlt ⟨w0, h1⟩
      | dequeue w k v rest hw hq =>
        refine ih ?_ hlt ⟨w0, h1⟩
        intro hmem2
        apply hnq
        simp only [queueIds] at hmem2 ⊢
        rw [hq]
        simp only [List.map_cons, List.mem_cons]
        exact Or.inr hmem2
      | workerExit w hw hq ht => exact ih hnq hlt ⟨w0, h1⟩
      | markWorking w k v hw => exact ih hnq hlt ⟨w0, h1⟩
      | writeResult w k v hw => exact ih hnq hlt ⟨w0, h1⟩
      | markFinished w k v hw => exact ih hnq hlt ⟨w0, h1⟩
      | graceBegin hc hw => exact ih hnq hlt ⟨w0, h1⟩
      | graceNoop hc hw => exact ih hnq hlt ⟨w0, h1⟩
      | nowBegin hc hw =>
        refine ih ?_ hlt ⟨w0, h1⟩
        intro hmem2
        simp [queueIds, task_queue.clear] at hmem2
      | nowNoop hc hw =>
        refine ih ?_ hlt ⟨w0, h1⟩
        intro hmem2
        simp [queueIds, task_queue.clear] at hmem2
      | terminateEnd hc hall => exact ih hnq hlt ⟨w0, h1⟩
      | initStep n d hc =>
        refine ih ?_ ?_ ⟨w0, h1⟩
        · show id ∉ queueIds (initializePool cA.pool n d)
          simp only [queueIds, initializePool_m_tasks]
          exact hnq
        · show id < (initializePool cA.pool n d).m_tasks.next_id
          rw [initializePool_m_tasks]
          exact hlt

/-- FIFO core: if task i sits ahead of task j in the pending queue, then any trace
that dequeues j has already dequeued i. -/
theorem fifo_aux {tr : List Label} {c c2 : Config} (h : Steps c tr c2) :
    ∀ {i j vi vj : Nat}, Inv c →
      List.Sublist [(i, vi), (j, vj)] c.pool.m_tasks.items →
      dequeuedIn tr j → dequeuedIn tr i := by
  induction h with
  | refl =>
    rintro i j vi vj _ _ ⟨w, hmem⟩
    cases hmem
  | cons hstep hrest ih =>
    rename_i cA cB cC lab trr
    intro i j vi vj hi hpre hd
    cases hstep with
    | submitBegin v hc hw =>
      rcases hd with ⟨w0, hmem⟩
      rcases List.mem_cons.mp hmem with h1 | h1
      · cases h1
      · rcases ih (inv_step (Step.submitBegin cA v hc hw) hi) hpre ⟨w0, h1⟩ with ⟨w1, h2⟩
        exact ⟨w1, List.mem_cons_of_mem _ h2⟩
    | submitOk v hc =>
      rcases hd with ⟨w0, hmem⟩
      rcases List.mem_cons.mp hmem with h1 | h1
      · cases h1
      · have hpre2 : List.Sublist [(i, vi), (j, vj)]
            ({ cA.pool with
                m_tasks := (cA.pool.m_tasks.emplace v).1 } : PoolState).m_tasks.items := by
          show List.Sublist _ (cA.pool.m_tasks.items ++ [(cA.pool.m_tasks.next_id, v)])
          exact hpre.trans (List.sublist_append_left _ _)
        rcases ih (inv_step (Step.submitOk cA v hc) hi) hpre2 ⟨w0, h1⟩ with ⟨w1, h2⟩
        exact ⟨w1, List.mem_cons_of_mem _ h2⟩
    | submitInsert k v hc =>
      rcases hd with ⟨w0, hmem⟩
      rcases List.mem_cons.mp hmem with h1 | h1
      · cases h1
      · rcases ih (inv_step (Step.submitInsert cA k v hc) hi) hpre ⟨w0, h1⟩ with ⟨w1, h2⟩
        exact ⟨w1, List.mem_cons_of_mem _ h2⟩
    | submitRejected v hc hw =>
      rcases hd with ⟨w0, hmem⟩
      rcases List.mem_cons.mp hmem with h1 | h1
      · cases h1
      · rcases ih (inv_step (Step.submitRejected cA v hc hw) hi) hpre ⟨w0, h1⟩ with ⟨w1, h2⟩
        exact ⟨w1, List.mem_cons_of_mem _ h2⟩
    | dequeue w k v rest hw hq =>
      rw [hq] at hpre
      cases hpre with
      | cons₂ a htail =>
        exact ⟨w, List.mem_cons_self _ _⟩
      | cons a htail =>
        have hjrest : (j, vj) ∈ rest := htail.subset (by simp)
        have hirest : (i, vi) ∈ rest := htail.subset (by simp)
        have hksort : ∀ b ∈ rest, k < b.1 := by
          have := hi.queueSorted
          rw [hq] at this
          exact (List.pairwise_cons.mp this).1
        rcases hd with ⟨w0, hmem⟩
        rcases List.mem_cons.mp hmem with h1 | h1
        · injection h1 with e1 e2
          subst e2
          exact absurd rfl (Nat.ne_of_lt (hksort _ hjrest))
        · rcases ih (inv_step (Step.dequeue cA w k v rest hw hq) hi) htail ⟨w0, h1⟩
            with ⟨w1, h2⟩
          exact ⟨w1, List.mem_cons_of_mem _ h2⟩
    | workerExit w hw hq ht =>
      rcases hd with ⟨w0, hmem⟩
      rcases List.mem_cons.mp hmem with h1 | h1
      · cases h1
      · rcases ih (inv_step (Step.workerExit cA w hw hq ht) hi) hpre ⟨w0, h1⟩ with ⟨w1, h2⟩
        exact ⟨w1, List.mem_cons_of_mem _ h2⟩
    | markWorking w k v hw =>
      rcases hd with ⟨w0, hmem⟩
      rcases List.mem_cons.mp hmem with h1 | h1
      · cases h1
      · rcases ih (inv_step (Step.markWorking cA w k v hw) hi) hpre ⟨w0, h1⟩ with ⟨w1, h2⟩
        exact ⟨w1, List.mem_cons_of_mem _ h2⟩
    | writeResult w k v hw =>
      rcases hd with ⟨w0, hmem⟩
      rcases List.mem_cons.mp hmem with h1 | h1
      · cases h1
      · rcases ih (inv_step (Step.writeResult cA w k v hw) hi) hpre ⟨w0, h1⟩ with ⟨w1, h2⟩
        exact ⟨w1, List.mem_cons_of_mem _ h2⟩
    | markFinished w k v hw =>
      rcases hd with ⟨w0, hmem⟩
      rcases List.mem_cons.mp hmem with h1 | h1
      · cases h1
      · rcases ih (inv_step (Step.markFinished cA w k v hw) hi) hpre ⟨w0, h1⟩ with ⟨w1, h2⟩
        exact ⟨w1, List.mem_cons_of_mem _ h2⟩
    | graceBegin hc hw =>
      rcases hd with ⟨w0, hmem⟩
      rcases List.mem_cons.mp hmem with h1 | h1
      · cases h1
      · rcases ih (inv_step (Step.graceBegin cA hc hw) hi) hpre ⟨w0, h1⟩ with ⟨w1, h2⟩
        exact ⟨w1, List.mem_cons_of_mem _ h2⟩
    | graceNoop hc hw =>
      rcases hd with ⟨w0, hmem⟩
      rcases List.mem_cons.mp hmem with h1 | h1
      · cases h1
      · rcases ih (inv_step (Step.graceNoop cA hc hw) hi) hpre ⟨w0, h1⟩ with ⟨w1, h2⟩
        exact ⟨w1, List.mem_cons_of_mem _ h2⟩
    | nowBegin hc hw =>
      have hjq : (j, vj) ∈ cA.pool.m_tasks.items := hpre.subset (by simp)
      rcases hd with ⟨w0, hmem⟩
      rcases List.mem_cons.mp hmem with h1 | h1
      · cases h1
      · exact absurd ⟨w0, h1⟩ (not_queued_never_dequeued hrest
          (fun hmem2 => by simp [queueIds, task_queue.clear] at hmem2)
          (show j < cA.pool.m_tasks.next_id from hi.queueBound _ hjq))
    | nowNoop hc hw =>
      have hjq : (j, vj) ∈ cA.pool.m_tasks.items := hpre.subset (by simp)
      rcases hd with ⟨w0, hmem⟩
      rcases List.mem_cons.mp hmem with h1 | h1
      · cases h1
      · exact absurd ⟨w0, h1⟩ (not_queued_never_dequeued hrest
          (fun hmem2 => by simp [queueIds, task_queue.clear] at hmem2)
          (show j < cA.pool.m_tasks.next_id from hi.queueBound _ hjq))
    | terminateEnd hc hall =>
      rcases hd with ⟨w0, hmem⟩
      rcases List.mem_cons.mp hmem with h1 | h1
      · cases h1
      · rcases ih (inv_step (Step.terminateEnd cA hc hall) hi) hpre ⟨w0, h1⟩ with ⟨w1, h2⟩
        exact ⟨w1, List.mem_cons_of_mem _ h2⟩
    | initStep n d hc =>
      rcases hd with ⟨w0, hmem⟩
      rcases List.mem_cons.mp hmem with h1 | h1
      · cases h1
      · have hpre2 : List.Sublist [(i, vi), (j, vj)]
            (initializePool cA.pool n d).m_tasks.items := by
          rw [initializePool_m_tasks]
          exact hpre
        rcases ih (inv_step (Step.initStep cA n d hc) hi) hpre2 ⟨w0, h1⟩ with ⟨w1, h2⟩
        exact ⟨w1, List.mem_cons_of_mem _ h2⟩

/-- C6: strict FIFO dequeue order — for any two tasks simultaneously present in the
queue of a reachable configuration, the one enqueued earlier (sitting ahead) is
dequeued no later: any continuation trace that dequeues the later one has dequeued
the earlier one. -/
theorem c6_fifo_dequeue_order {tr0 : List Label} {c : Config}
    (h0 : Steps initConfig tr0 c) {i j vi vj : Nat}
    (hpre : List.Sublist [(i, vi), (j, vj)] c.pool.m_tasks.items)
    {tr : List Label} {c2 : Config} (h : Steps c tr c2)
    (hd : dequeuedIn tr j) : dequeuedIn tr i :=
  fifo_aux h (inv_steps h0 inv_init) hpre hd

/-- Witness for C6 on a concrete run: tasks 0 and 1 are queued together; a trace
dequeues 1, so it dequeued 0 first. -/
theorem c6_witness :
    dequeuedIn
      [Label.dequeue 0 0, Label.markWorking 0 0, Label.writeResult 0 0 5,
       Label.markFinished 0 0, Label.dequeue 0 1] 0 :=
  c6_fifo_dequeue_order
    (Steps.cons (Step.initStep initConfig 1 false rfl)
      (Steps.cons (Step.submitBegin _ 5 rfl rfl)
        (Steps.cons (Step.submitOk _ 5 rfl)
          (Steps.cons (Step.submitInsert _ 0 5 rfl)
            (Steps.cons (Step.submitBegin _ 6 rfl rfl)
              (Steps.cons (Step.submitOk _ 6 rfl)
                (Steps.cons (Step.submitInsert _ 1 6 rfl) (Steps.refl _))))))))
    (List.Sublist.refl _)
    (Steps.cons (Step.dequeue _ 0 0 5 [(1, 6)] rfl rfl)
      (Steps.cons (Step.markWorking _ 0 0 5 rfl)
        (Steps.cons (Step.writeResult _ 0 0 5 rfl)
          (Steps.cons (Step.markFinished _ 0 0 5 rfl)
            (Steps.cons (Step.dequeue _ 0 1 6 [] rfl rfl) (Steps.refl _))))))
    ⟨0, by decide⟩

/-- C10 counterexample to the claim as stated: on the reachable raced
configuration (task 0 driven to Finished with result 5 before the line-144
insertion reverted its entry to ⟨Waiting, 5⟩), `get_status 0` prints the in-queue
message but returns the stale result 5 — a nonzero value for a Waiting task, so
the claim that a Waiting task yields no usable result (0) is false. -/
theorem c10_counterexample :
    Steps initConfig
      [Label.initStep 1 false, Label.submitBegin 5, Label.submitOk 5 0,
       Label.dequeue 0 0, Label.markWorking 0 0, Label.writeResult 0 0 5,
       Label.markFinished 0 0, Label.submitInsert 0] c4RacedCfg ∧
    c4RacedCfg.pool.m_task_status 0 = some ⟨Status.Waiting, 5⟩ ∧
    get_status c4RacedCfg.pool 0 = (some (ConsoleMsg.inQueue 0), 5) ∧
    (get_status c4RacedCfg.pool 0).2 ≠ 0 := by
  refine ⟨?_, rfl, rfl, by decide⟩
  exact Steps.cons (Step.initStep initConfig 1 false rfl)
    (Steps.cons (Step.submitBegin _ 5 rfl rfl)
      (Steps.cons (Step.submitOk _ 5 rfl)
        (Steps.cons (Step.dequeue _ 0 0 5 [] rfl rfl)
          (Steps.cons (Step.markWorking _ 0 0 5 rfl)
            (Steps.cons (Step.writeResult _ 0 0 5 rfl)
              (Steps.cons (Step.markFinished _ 0 0 5 rfl)
                (Steps.cons (Step.submitInsert _ 0 5 rfl) (Steps.refl _))))))))

/-- C10 (amended): `get_status` returns the numeric value 0 for an unknown id and
for a Working task, and for a Waiting task it returns the stored result — which
is 0 for a genuinely pending task, but can be a stale nonzero result when the
line-144 race reverted a Finished entry (see the counterexample); so the returned
value alone cannot distinguish NotFound, Queued, Working and a Finished task
whose genuine result is 0 — the four concrete pools below all return the value 0,
and only the console message differs between them. -/
theorem c10_return_value_ambiguity :
    (∀ (s : PoolState) (id : Nat), s.m_task_status id = none →
      (get_status s id).2 = 0) ∧
    (∀ (s : PoolState) (id : Nat) (ts : TaskStatus), s.m_task_status id = some ts →
      ts.status = Status.Working → (get_status s id).2 = 0) ∧
    (∀ (s : PoolState) (id : Nat) (ts : TaskStatus), s.m_task_status id = some ts →
      ts.status = Status.Waiting →
      get_status s id = (some (ConsoleMsg.inQueue id), ts.result)) ∧
    get_status poolDead 0 = (some ConsoleMsg.noSuchTask, 0) ∧
    get_status (poolWith ⟨Status.Waiting, 0⟩) 0 = (some (ConsoleMsg.inQueue 0), 0) ∧
    get_status (poolWith ⟨Status.Working, 7⟩) 0 = (some (ConsoleMsg.processing 0), 0) ∧
    get_status (poolWith ⟨Status.Finished, 0⟩) 0 = (none, 0) := by
  refine ⟨?_, ?_, ?_, rfl, rfl, rfl, rfl⟩
  · intro s id h
    simp [get_status, h]
  · intro s id ts h hst
    simp [get_status, h, hst]
  · intro s id ts h hst
    simp [get_status, h, hst]

/-- Witness for C10 on concrete pools: a pending Waiting task reports its stored
(default) result 0 with the in-queue message, and an unknown id reports 0. -/
theorem c10_witness :
    get_status (poolWith ⟨Status.Waiting, 0⟩) 0 = (some (ConsoleMsg.inQueue 0), 0) ∧
    (get_status poolDead 3).2 = 0 :=
  ⟨c10_return_value_ambiguity.2.2.1 (poolWith ⟨Status.Waiting, 0⟩) 0
      ⟨Status.Waiting, 0⟩ rfl rfl,
   c10_return_value_ambiguity.1 poolDead 3 rfl⟩

/-- Witness for C8 at concrete events: the dequeue of a successful routine
iteration holds the exclusive lock, and the enqueue of a successful add_task call
holds no lock. -/
theorem c8_witness :
    (Event.mk Action.popTask LockMode.exclusive).lock = LockMode.exclusive ∧
    (Event.mk Action.emplaceTask LockMode.nolock).lock = LockMode.nolock := by
  refine ⟨(c8_locking_discipline true).1 ⟨Action.popTask, LockMode.exclusive⟩
            (by decide) rfl,
          (c8_locking_discipline true).2.2.2.2.2.2.2.1
            ⟨Action.emplaceTask, LockMode.nolock⟩ (by decide) rfl⟩

end ThreadPool
